import Mathlib

/-!
# Slackbase storage engine: a shallow embedding and verification

This file embeds the core of the `slackbase` key-value store (a Bitcask-style
log-structured engine written in Rust) into Lean and proves, or refutes,
the specification claims about it.

Modelling conventions:

* Rust `String`/`&str`/byte buffers are modelled as `List Nat`, one element
  per byte (`abbrev Str`).  All concrete inputs in this file are ASCII, so a
  byte is a character.  Offsets and lengths count bytes, matching the Rust
  code which measures `offset`/`len` in bytes.
* Rust `u64`/`usize` become `Nat`.  The only overflow-sensitive operation in
  the sources is `offset.saturating_add(len)` in `read_record_slice`; on
  `Nat` plain addition is exact, hence never wraps, which coincides with the
  saturating semantics on every input the program can produce.
* `HashMap` becomes an association list with a normalising insert
  (`ainsert`); Rust's `HashMap` has no observable ordering, so the list
  order is free.
* File-system side effects (the data log, the WAL, the hint file, the
  persisted secondary index) become explicit fields of the `SlackbaseEngine`
  structure; modelled I/O is infallible, so the `Result` values of the Rust
  mutations are always `Ok` and the model returns the new state directly.
* External library behaviour is modelled from its documented semantics on
  the fragment the program uses: `base64` (STANDARD alphabet with padding),
  decimal formatting/parsing of `u64`, the `lru` crate's bounded LRU map,
  and `serde_json` on flat objects/arrays of strings and integers.
-/

set_option maxRecDepth 8192

namespace Slackbase

/-- A byte string: one `Nat` per byte. -/
abbrev Str := List Nat

/-- The TAB byte, the field separator of log records. -/
def TABb : Nat := 9

/-- The LF byte, the record terminator. -/
def LFb : Nat := 10

/-- The bytes of `"put"`. -/
def putTok : Str := [112, 117, 116]

/-- The bytes of `"del"`. -/
def delTok : Str := [100, 101, 108]

/-- The bytes of `"BEGIN"`, the WAL batch-opening control token. -/
def beginTok : Str := [66, 69, 71, 73, 78]

/-- The bytes of `"END"`, the WAL batch-closing control token. -/
def endTok : Str := [69, 78, 68]

/-- Rust `char::is_whitespace` restricted to single bytes: HT, LF, VT, FF,
CR and space.  (The non-ASCII Unicode whitespace code points are multi-byte
in UTF-8 and never arise byte-wise here.) -/
def isWS (b : Nat) : Bool := b = 9 ∨ b = 10 ∨ b = 11 ∨ b = 12 ∨ b = 13 ∨ b = 32

/-- Rust `str::trim_end`: drop trailing whitespace. -/
def trimEnd (s : Str) : Str := (s.reverse.dropWhile isWS).reverse

/-- Rust `str::split('\t')`: split at every TAB, keeping empty pieces;
the result is always nonempty (`"".split('\t')` yields `[""]`). -/
def splitTab : Str → List Str
  | [] => [[]]
  | b :: rest =>
    if b = TABb then [] :: splitTab rest
    else
      match splitTab rest with
      | p :: ps => (b :: p) :: ps
      | [] => [[b]]

/-- Rust `str::splitn(n, '\t')`: at most `n` pieces, the last piece keeps
the remaining separators. -/
def splitN : Nat → Str → List Str
  | 0, _ => []
  | 1, s => [s]
  | n + 2, s =>
    match s.findIdx? (· = TABb) with
    | none => [s]
    | some i => s.take i :: splitN (n + 1) (s.drop (i + 1))

/-- Rust `BufRead::lines` over a byte buffer: LF-separated lines, without
terminators; a trailing LF produces no final empty line. -/
def splitLF : Str → List Str
  | [] => [[]]
  | b :: rest =>
    if b = LFb then [] :: splitLF rest
    else
      match splitLF rest with
      | p :: ps => (b :: p) :: ps
      | [] => [[b]]

/-- The line view used by `read_records`/`WAL::iter` (Rust `lines()`):
`splitLF` minus the empty segment a trailing LF produces. -/
def linesOf (s : Str) : List Str :=
  let ps := splitLF s
  if ps.getLast? = some [] then ps.dropLast else ps

/-- Fuelled helper for `natDigs` (structural recursion, so that records
containing decimal numbers evaluate inside the kernel). -/
def natDigsGo : Nat → Nat → Str
  | 0, _ => []
  | fuel + 1, n => if n < 10 then [48 + n] else natDigsGo fuel (n / 10) ++ [48 + n % 10]

/-- Decimal digit bytes of a `Nat`, most significant first: Rust
`format!("{}", n)` for `u64`. -/
def natDigs (n : Nat) : Str := natDigsGo (n + 1) n

/-- Rust `str::parse::<u64>().ok()` on the inputs the engine produces:
`some` iff the bytes are a nonempty run of decimal digits. -/
def parseNat (s : Str) : Option Nat :=
  if s = [] then none
  else if s.all (fun b => 48 ≤ b ∧ b ≤ 57) then
    some (s.foldl (fun acc b => acc * 10 + (b - 48)) 0)
  else none

/-! ## Base64 (the `base64` crate's `general_purpose::STANDARD` engine) -/

/-- The STANDARD base64 alphabet: sextet value to ASCII byte. -/
def b64char (n : Nat) : Nat :=
  if n < 26 then 65 + n
  else if n < 52 then 97 + (n - 26)
  else if n < 62 then 48 + (n - 52)
  else if n = 62 then 43
  else 47

/-- Inverse of `b64char`: ASCII byte to sextet value. -/
def b64val (c : Nat) : Option Nat :=
  if 65 ≤ c ∧ c ≤ 90 then some (c - 65)
  else if 97 ≤ c ∧ c ≤ 122 then some (c - 97 + 26)
  else if 48 ≤ c ∧ c ≤ 57 then some (c - 48 + 52)
  else if c = 43 then some 62
  else if c = 47 then some 63
  else none

/-- The base64 padding byte `'='`. -/
def padB : Nat := 61

/-- STANDARD base64 encoding with padding (`general_purpose::STANDARD.encode`). -/
def b64enc : Str → Str
  | a :: b :: c :: rest =>
    b64char (a / 4) :: b64char ((a % 4) * 16 + b / 16) ::
    b64char ((b % 16) * 4 + c / 64) :: b64char (c % 64) :: b64enc rest
  | [a, b] =>
    [b64char (a / 4), b64char ((a % 4) * 16 + b / 16), b64char ((b % 16) * 4), padB]
  | [a] => [b64char (a / 4), b64char ((a % 4) * 16), padB, padB]
  | [] => []

/-- STANDARD base64 decoding (`general_purpose::STANDARD.decode(...).ok()`):
canonical padding required, trailing bits must be zero. -/
def b64dec : Str → Option Str
  | c1 :: c2 :: c3 :: c4 :: rest =>
    match b64val c1, b64val c2 with
    | some v1, some v2 =>
      if c3 = padB then
        if c4 = padB ∧ rest = [] ∧ v2 % 16 = 0 then some [v1 * 4 + v2 / 16]
        else none
      else
        match b64val c3 with
        | some v3 =>
          if c4 = padB then
            if rest = [] ∧ v3 % 4 = 0 then
              some [v1 * 4 + v2 / 16, (v2 % 16) * 16 + v3 / 4]
            else none
          else
            match b64val c4 with
            | some v4 =>
              match b64dec rest with
              | some tail =>
                some ((v1 * 4 + v2 / 16) :: ((v2 % 16) * 16 + v3 / 4) ::
                      ((v3 % 4) * 64 + v4) :: tail)
              | none => none
            | none => none
        | none => none
    | _, _ => none
  | [] => some []
  | _ => none

/-! ## JSON (`serde_json` on the fragment the engine uses)

The engine feeds `serde_json` flat objects and arrays whose leaves are
strings and integers (composite ops, secondary index).  The model below is
faithful on that fragment: compact serialization, recursive-descent parsing
of compact input, duplicate object keys resolved to the last binding (as
`serde_json`'s map insert does).  Floating point literals and non-compact
whitespace are outside the modelled fragment. -/

/-- JSON values (the fragment used by the engine). -/
inductive Json where
  | null
  | bool (b : Bool)
  | num (n : Int)
  | str (s : Str)
  | arr (xs : List Json)
  | obj (fs : List (Str × Json))

/-- Decimal bytes of an `Int`. -/
def intDigs (n : Int) : Str :=
  if n < 0 then 45 :: natDigs n.natAbs else natDigs n.natAbs

/-- Escape one byte inside a JSON string literal (quote and backslash; the
engine's values contain no control bytes on the modelled fragment). -/
def jescape (b : Nat) : Str :=
  if b = 34 then [92, 34] else if b = 92 then [92, 92] else [b]

/-- Bytes of a JSON string literal. -/
def jstrLit (s : Str) : Str := 34 :: (s.map jescape).flatten ++ [34]

mutual

/-- `serde_json::to_string` (compact) of the modelled fragment. -/
def jser : Json → Str
  | .null => [110, 117, 108, 108]
  | .bool true => [116, 114, 117, 101]
  | .bool false => [102, 97, 108, 115, 101]
  | .num n => intDigs n
  | .str s => jstrLit s
  | .arr [] => [91, 93]
  | .arr (x :: xs) => 91 :: (jser x ++ jserItems xs) ++ [93]
  | .obj [] => [123, 125]
  | .obj ((k, v) :: fs) => 123 :: (jstrLit k ++ 58 :: jser v ++ jserFields fs) ++ [125]

/-- Remaining array elements, each preceded by a comma. -/
def jserItems : List Json → Str
  | [] => []
  | y :: ys => 44 :: jser y ++ jserItems ys

/-- Remaining object fields, each preceded by a comma. -/
def jserFields : List (Str × Json) → Str
  | [] => []
  | (k, v) :: fs => 44 :: jstrLit k ++ 58 :: jser v ++ jserFields fs

end

/-- Parse a JSON string body after the opening quote; returns the decoded
bytes and the input following the closing quote. -/
def pString : Str → Option (Str × Str)
  | [] => none
  | 34 :: rest => some ([], rest)
  | 92 :: e :: rest =>
    let c? : Option Nat :=
      if e = 34 then some 34 else if e = 92 then some 92
      else if e = 110 then some 10 else if e = 116 then some 9
      else if e = 114 then some 13 else none
    match c? with
    | some c =>
      match pString rest with
      | some (s, r) => some (c :: s, r)
      | none => none
    | none => none
  | b :: rest =>
    match pString rest with
    | some (s, r) => some (b :: s, r)
    | none => none

/-- Parse an integer literal (optional minus sign, decimal digits). -/
def pNumber (s : Str) : Option (Int × Str) :=
  let core (t : Str) : Option (Nat × Str) :=
    let ds := t.takeWhile (fun b => 48 ≤ b ∧ b ≤ 57)
    if ds = [] then none
    else some (ds.foldl (fun acc b => acc * 10 + (b - 48)) 0, t.drop ds.length)
  match s with
  | 45 :: rest => (core rest).map (fun p => (-(p.1 : Int), p.2))
  | _ => (core s).map (fun p => ((p.1 : Int), p.2))

/-- Duplicate object keys: keep the last binding, as `serde_json`'s map
insert does. -/
def dedupKeysLast : List (Str × Json) → List (Str × Json)
  | [] => []
  | (k, v) :: fs =>
    if fs.any (fun p => p.1 = k) then dedupKeysLast fs
    else (k, v) :: dedupKeysLast fs

mutual

/-- Parse one JSON value from compact input (fuelled recursion). -/
def pVal : Nat → Str → Option (Json × Str)
  | 0, _ => none
  | fuel + 1, s =>
    match s with
    | 110 :: 117 :: 108 :: 108 :: rest => some (.null, rest)
    | 116 :: 114 :: 117 :: 101 :: rest => some (.bool true, rest)
    | 102 :: 97 :: 108 :: 115 :: 101 :: rest => some (.bool false, rest)
    | 34 :: rest => (pString rest).map (fun p => (.str p.1, p.2))
    | 91 :: 93 :: rest => some (.arr [], rest)
    | 91 :: rest =>
      match pItems fuel rest with
      | some (xs, r) => some (.arr xs, r)
      | none => none
    | 123 :: 125 :: rest => some (.obj [], rest)
    | 123 :: rest =>
      match pFields fuel rest with
      | some (fs, r) => some (.obj (dedupKeysLast fs), r)
      | none => none
    | _ => (pNumber s).map (fun p => (.num p.1, p.2))

/-- Parse the elements of a nonempty array after the opening bracket. -/
def pItems : Nat → Str → Option (List Json × Str)
  | 0, _ => none
  | fuel + 1, s =>
    match pVal fuel s with
    | some (j, 44 :: rest) =>
      match pItems fuel rest with
      | some (xs, r) => some (j :: xs, r)
      | none => none
    | some (j, 93 :: rest) => some ([j], rest)
    | _ => none

/-- Parse the fields of a nonempty object after the opening brace. -/
def pFields : Nat → Str → Option (List (Str × Json) × Str)
  | 0, _ => none
  | fuel + 1, s =>
    match s with
    | 34 :: rest =>
      match pString rest with
      | some (k, 58 :: rest2) =>
        match pVal fuel rest2 with
        | some (v, 44 :: rest3) =>
          match pFields fuel rest3 with
          | some (fs, r) => some ((k, v) :: fs, r)
          | none => none
        | some (v, 125 :: rest3) => some ([(k, v)], rest3)
        | _ => none
      | _ => none
    | _ => none

end

/-- `serde_json::from_str(...).ok()` on the modelled fragment: the whole
input must parse as one value. -/
def parseJson (s : Str) : Option Json :=
  match pVal (s.length + 1) s with
  | some (j, []) => some j
  | _ => none

/-! ## Association maps (Rust `HashMap`; iteration order is unobservable) -/

/-- `HashMap::get`. -/
def alookup {α : Type} (m : List (Str × α)) (k : Str) : Option α :=
  (m.find? (fun p => p.1 = k)).map (fun p => p.2)

/-- `HashMap::insert` (normalising: the new binding replaces any old one). -/
def ainsert {α : Type} (m : List (Str × α)) (k : Str) (v : α) : List (Str × α) :=
  (k, v) :: m.filter (fun p => ¬ p.1 = k)

/-- `HashMap::remove`. -/
def aerase {α : Type} (m : List (Str × α)) (k : Str) : List (Str × α) :=
  m.filter (fun p => ¬ p.1 = k)

/-! ## The `lru` crate's bounded cache (capacity 1024, most recent first) -/

/-- The capacity passed at `open`: `NonZeroUsize::new(1024)`. -/
def lruCap : Nat := 1024

/-- `LruCache::get` without the promotion (the lookup part). -/
def lruFind (c : List (Str × Str)) (k : Str) : Option Str := alookup c k

/-- The promotion performed by a hit of `LruCache::get`. -/
def lruPromote (c : List (Str × Str)) (k v : Str) : List (Str × Str) :=
  (k, v) :: aerase c k

/-- `LruCache::put`: insert or update at the most-recent end, evicting the
least recently used entry on overflow. -/
def lruPut (c : List (Str × Str)) (k v : Str) : List (Str × Str) :=
  ((k, v) :: aerase c k).take lruCap

/-- `LruCache::pop`. -/
def lruPop (c : List (Str × Str)) (k : Str) : List (Str × Str) := aerase c k

/-! ## Secondary index (`engine/index.rs`) -/

/-- `SecondaryIndex`: `field → value → set<key>`. -/
abbrev SecIdx := List (Str × List (Str × List Str))

/-- `SecondaryIndex::find` (the `Vec` order is unobservable set order). -/
def secFind (idx : SecIdx) (f v : Str) : List Str :=
  match alookup idx f with
  | some vm =>
    match alookup vm v with
    | some ks => ks
    | none => []
  | none => []

/-- The removal performed by `SecondaryIndex::update` for one
`(field, stringified-value)` pair of the old JSON object: drop `k` from the
value set, pruning empty sets and empty field maps. -/
def removeKeyPair (idx : SecIdx) (k f sv : Str) : SecIdx :=
  match alookup idx f with
  | none => idx
  | some vm =>
    let vm' :=
      match alookup vm sv with
      | none => vm
      | some set =>
        let s' := set.filter (fun x => ¬ x = k)
        if s' = [] then aerase vm sv else ainsert vm sv s'
    if vm' = [] then aerase idx f else ainsert idx f vm'

/-- The insertion performed by `SecondaryIndex::update` for one pair of the
new JSON object (`entry(..).or_default()` chain plus set insert). -/
def addKeyPair (idx : SecIdx) (k f sv : Str) : SecIdx :=
  let vm := (alookup idx f).getD []
  let set := (alookup vm sv).getD []
  let set' := if k ∈ set then set else set ++ [k]
  ainsert idx f (ainsert vm sv set')

/-- Stringification of a JSON field value: a JSON string contributes its raw
text, any other value its JSON serialization. -/
def strVal : Json → Str
  | .str s => s
  | j => jser j

/-- The `(field, stringified-value)` pairs a stored value contributes to the
secondary index: nonempty only when the value parses as a JSON object. -/
def pairsOf : Option Str → List (Str × Str)
  | none => []
  | some s =>
    match parseJson s with
    | some (.obj fs) => fs.map (fun p => (p.1, strVal p.2))
    | _ => []

/-- `SecondaryIndex::update key old_json new_json`. -/
def secUpdate (idx : SecIdx) (k : Str) (old new : Option Str) : SecIdx :=
  let idx1 := (pairsOf old).foldl (fun i p => removeKeyPair i k p.1 p.2) idx
  (pairsOf new).foldl (fun i p => addKeyPair i k p.1 p.2) idx1

/-! ## Storage layer (`storage/file.rs`) -/

/-- `append_record`: append `record\n`, returning the new file, the offset
of the line's first byte, and the line length including the LF. -/
def append_record (file : Str) (record : Str) : Str × Nat × Nat :=
  (file ++ record ++ [LFb], file.length, record.length + 1)

/-- `read_record_slice`: `None` when `offset + len` (saturating, which on
`Nat` is exact) exceeds the file size, otherwise the trimmed slice. -/
def read_record_slice (file : Str) (off len : Nat) : Option Str :=
  if file.length < off + len then none
  else some (trimEnd ((file.drop off).take len))

/-- `read_records`: all lines split once at the first TAB; lines without a
TAB are skipped. -/
def read_records (file : Str) : List (Str × Str) :=
  (linesOf file).filterMap (fun l =>
    match splitN 2 l with
    | [a, b] => some (a, b)
    | _ => none)

/-- One `compact_log` scan step over a `(key, value)` pair of
`read_records` output, updating the `latest` map. -/
def compactStep (now : Nat) (m : List (Str × Str × Option Nat)) (kv : Str × Str) :
    List (Str × Str × Option Nat) :=
  let key := kv.1
  let value := kv.2
  if value = [] then aerase m key
  else
    let parts := splitTab value
    if parts.headD [] = putTok then
      let b64v := (parts.get? 1).getD []
      match (parts.get? 2).bind parseNat with
      | some ts => if now > ts then aerase m key else ainsert m key (b64v, some ts)
      | none => ainsert m key (b64v, none)
    else if parts.headD [] = delTok then aerase m key
    else m

/-- `compact_log`: fold the scan over all records, then rewrite the file
with one `{key}\tput\t{b64}\t{expiry}` line per surviving entry (the
`HashMap` iteration order is unobservable; the model writes in map order). -/
def compact_log (file : Str) (now : Nat) : Str :=
  let latest := (read_records file).foldl (compactStep now) []
  latest.foldl (fun f entry =>
    f ++ entry.1 ++ [TABb] ++ putTok ++ [TABb] ++ entry.2.1 ++ [TABb] ++
      (match entry.2.2 with
       | some ts => natDigs ts
       | none => []) ++ [LFb]) []

/-- The scan loop of `build_offset_index` over the LF-split segments,
carrying the index and the running offset.  An empty segment `continue`s
without advancing the offset, exactly as the source does. -/
def buildIdxGo (now : Nat) :
    List Str → List (Str × Nat × Nat) → Nat → List (Str × Nat × Nat)
  | [], idx, _ => idx
  | line :: rest, idx, off =>
    if line = [] then buildIdxGo now rest idx off
    else
      match line.findIdx? (fun b => b = TABb) with
      | none => buildIdxGo now rest idx (off + line.length + 1)
      | some tab =>
        let key := line.take tab
        let restB := line.drop (tab + 1)
        if restB = [] then buildIdxGo now rest (aerase idx key) (off + line.length + 1)
        else
          let parts := splitTab restB
          if parts.headD [] = putTok then
            match (parts.get? 2).bind parseNat with
            | some ex =>
              if now > ex then buildIdxGo now rest (aerase idx key) (off + line.length + 1)
              else buildIdxGo now rest (ainsert idx key (off, line.length)) (off + line.length + 1)
            | none => buildIdxGo now rest (ainsert idx key (off, line.length)) (off + line.length + 1)
          else if parts.headD [] = delTok then
            buildIdxGo now rest (aerase idx key) (off + line.length + 1)
          else buildIdxGo now rest idx (off + line.length + 1)

/-- `build_offset_index`: single forward scan of the log. -/
def build_offset_index (file : Str) (now : Nat) : List (Str × Nat × Nat) :=
  buildIdxGo now (splitLF file) [] 0

/-! ## The KV engine (`engine/kv.rs`) -/

/-- The log/WAL record of a `put`:
`put\t{key}\t{base64(value)}\t{expiry-or-empty}`.  The serializer is the
*plain* one (identity on bytes); `base64` is the STANDARD engine. -/
def putRecord (key value : Str) (ex : Option Nat) : Str :=
  putTok ++ TABb :: key ++ TABb :: b64enc value ++ TABb ::
    (match ex with
     | some ts => natDigs ts
     | none => [])

/-- The log/WAL record of a delete: `del\t{key}`. -/
def delRecord (key : Str) : Str := delTok ++ TABb :: key

/-- `PlainSerializer::deserialize`: identity on bytes (the Rust version
additionally checks UTF-8 validity, which holds for every byte string the
engine itself stores). -/
def deserializePlain (b : Str) : Option Str := some b

/-- The engine state.  File-system contents (data log, WAL lines, the
persisted secondary index) are explicit fields; the hint file always equals
`index` because every mutation rewrites it from `index`. -/
structure SlackbaseEngine where
  file : Str
  index : List (Str × Nat × Nat)
  secIndex : SecIdx
  lru : List (Str × Str)
  wal : List Str
  writeBuffer : List Str
  readOps : Nat
  writeOps : Nat
  hits : Nat
  misses : Nat

namespace SlackbaseEngine

/-- `flush_buffer`: drain `write_buffer` into the WAL via `WAL::append`
(buffered appends; no flush barrier). -/
def flushBuffer (e : SlackbaseEngine) : SlackbaseEngine :=
  { e with wal := e.wal ++ e.writeBuffer, writeBuffer := [] }

/-- `get`: LRU first, then index, slice read, record parse, expiry check,
base64 decode, deserialize, LRU fill.  Returns the value and the new state
(the counters and the cache change). -/
def get (e : SlackbaseEngine) (now : Nat) (key : Str) : Option Str × SlackbaseEngine :=
  let e := { e with readOps := e.readOps + 1 }
  match lruFind e.lru key with
  | some v => (some v, { e with lru := lruPromote e.lru key v, hits := e.hits + 1 })
  | none =>
    match alookup e.index key with
    | none => (none, e)
    | some ol =>
      match read_record_slice e.file ol.1 ol.2 with
      | none => (none, e)
      | some raw =>
        let parts := splitTab raw
        if parts.length < 3 ∨ ¬ parts.headD [] = putTok then
          (none, { e with misses := e.misses + 1 })
        else
          let fin : SlackbaseEngine → Option Str × SlackbaseEngine := fun e =>
            match b64dec ((parts.get? 2).getD []) with
            | none => (none, e)
            | some bytes =>
              match deserializePlain bytes with
              | none => (none, e)
              | some v => (some v, { e with lru := lruPut e.lru key v, hits := e.hits + 1 })
          if 4 ≤ parts.length ∧ ¬ (parts.get? 3).getD [] = [] then
            match parseNat ((parts.get? 3).getD []) with
            | none => (none, e)
            | some ex =>
              if now > ex then (none, { e with misses := e.misses + 1 })
              else fin e
          else fin e

/-- `put_internal`: secondary-index diff (via `get`), record encode, WAL
append (through the write buffer), log append, index update, hint rewrite,
LRU insert. -/
def put_internal (e : SlackbaseEngine) (now : Nat) (key value : Str)
    (expiresAt : Option Nat) : SlackbaseEngine :=
  let e := { e with writeOps := e.writeOps + 1 }
  let r := e.get now key
  let e := { r.2 with secIndex := secUpdate r.2.secIndex key r.1 (some value) }
  let record := putRecord key value expiresAt
  let e := ({ e with writeBuffer := e.writeBuffer ++ [record] }).flushBuffer
  let ar := append_record e.file record
  let e := { e with file := ar.1, index := ainsert e.index key ar.2 }
  { e with lru := lruPut e.lru key value }

/-- `put`. -/
def put (e : SlackbaseEngine) (now : Nat) (key value : Str) : SlackbaseEngine :=
  e.put_internal now key value none

/-- `putex`: TTL is converted to the absolute expiry `now + ttl`. -/
def putex (e : SlackbaseEngine) (now : Nat) (key value : Str) (ttl : Nat) : SlackbaseEngine :=
  e.put_internal now key value (some (now + ttl))

/-- `delete`: fetch old value, WAL+log `del` record, index removal,
secondary-index removal, LRU eviction, hint rewrite. -/
def delete (e : SlackbaseEngine) (now : Nat) (key : Str) : SlackbaseEngine :=
  let e := { e with writeOps := e.writeOps + 1 }
  let r := e.get now key
  let e := r.2
  let record := delRecord key
  let e := ({ e with writeBuffer := e.writeBuffer ++ [record] }).flushBuffer
  let ar := append_record e.file record
  let e := { e with file := ar.1, index := aerase e.index key }
  let e := { e with secIndex := secUpdate e.secIndex key r.1 none }
  { e with lru := lruPop e.lru key }

/-- `open` on existing on-disk state whose hint file is fresh: the index is
loaded from the hint, the LRU starts empty, the persisted secondary index is
reloaded, counters reset.  (`recover_from_wal` is applied separately.) -/
def openWith (file : Str) (index : List (Str × Nat × Nat)) (sec : SecIdx) : SlackbaseEngine :=
  { file := file, index := index, secIndex := sec, lru := [], wal := [],
    writeBuffer := [], readOps := 0, writeOps := 0, hits := 0, misses := 0 }

/-- A freshly created database: no files yet. -/
def empty : SlackbaseEngine := openWith [] [] []

/-- `compact`: flush, rewrite the log via `compact_log`, rebuild the index
from the new log, save the hint, clear the WAL, and reopen (which reloads
the just-saved hint and the persisted secondary index, and replays the
now-empty WAL). -/
def compact (e : SlackbaseEngine) (now : Nat) : SlackbaseEngine :=
  let e := e.flushBuffer
  let file' := compact_log e.file now
  let idx := build_offset_index file' now
  openWith file' idx e.secIndex

end SlackbaseEngine

/-- `BatchOp` — modelled from its uses: the enum is declared in
`engine/batch.rs` (not part of the provided sources) and is consumed in
`kv.rs`/`cli.rs` as a two-variant enum of put and delete intents. -/
inductive BatchOp where
  | put (k v : Str)
  | del (k : Str)

/-- The WAL line written for a batch op (the raw value, not base64). -/
def batchLine : BatchOp → Str
  | .put k v => putTok ++ TABb :: k ++ TABb :: v
  | .del k => delTok ++ TABb :: k

namespace SlackbaseEngine

/-- `batch`: flush pending buffer, frame the ops between `BEGIN` and `END`
in the WAL, flush the WAL, then replay the ops through `put`/`delete`. -/
def batch (e : SlackbaseEngine) (now : Nat) (ops : List BatchOp) : SlackbaseEngine :=
  let e := e.flushBuffer
  let e := { e with wal := e.wal ++ beginTok :: ops.map batchLine ++ [endTok] }
  ops.foldl (fun e op =>
    match op with
    | .put k v => e.put now k v
    | .del k => e.delete now k) e

end SlackbaseEngine

/-- The application of one accumulated WAL line inside the `END` arm of
`recover_from_wal`: `put\t…` lines are split in three and replayed through
`put`, `del\t…` lines in two through `delete`; anything else is skipped. -/
def applyWalOp (now : Nat) (e : SlackbaseEngine) (op : Str) : SlackbaseEngine :=
  if (putTok ++ [TABb]).isPrefixOf op then
    match splitN 3 op with
    | [_, k, v] => e.put now k v
    | _ => e
  else if (delTok ++ [TABb]).isPrefixOf op then
    match splitN 2 op with
    | [_, k] => e.delete now k
    | _ => e
  else e

/-- The state machine of `recover_from_wal`: `in_tx` flag and the
accumulated batch. -/
def recoverGo (now : Nat) :
    SlackbaseEngine → Bool → List Str → List Str → SlackbaseEngine
  | e, _, _, [] => e
  | e, inTx, batchAcc, l :: ls =>
    if l = beginTok then recoverGo now e true [] ls
    else if l = endTok ∧ inTx then
      recoverGo now (batchAcc.foldl (applyWalOp now) e) false [] ls
    else if inTx then recoverGo now e true (batchAcc ++ [l]) ls
    else recoverGo now e inTx batchAcc ls

/-- `recover_from_wal`, applied to the WAL lines `WAL::iter` returns. -/
def recover_from_wal (now : Nat) (e : SlackbaseEngine) (entries : List Str) :
    SlackbaseEngine :=
  recoverGo now e false [] entries

namespace SlackbaseEngine

/-! ### Composite list operations (read–modify–write over JSON arrays) -/

/-- `list_lpush`: parse the current value as JSON (default `[]` on
miss/parse failure), insert the string at the head if an array (replace by a
singleton otherwise), serialize, `put`. -/
def list_lpush (e : SlackbaseEngine) (now : Nat) (key value : Str) : SlackbaseEngine :=
  let r := e.get now key
  let arr :=
    match r.1.bind parseJson with
    | some j => j
    | none => Json.arr []
  let arr2 :=
    match arr with
    | .arr xs => Json.arr (.str value :: xs)
    | _ => Json.arr [.str value]
  r.2.put now key (jser arr2)

/-- `list_rpush`: as `list_lpush` but appending at the tail. -/
def list_rpush (e : SlackbaseEngine) (now : Nat) (key value : Str) : SlackbaseEngine :=
  let r := e.get now key
  let arr :=
    match r.1.bind parseJson with
    | some j => j
    | none => Json.arr []
  let arr2 :=
    match arr with
    | .arr xs => Json.arr (xs ++ [.str value])
    | _ => Json.arr [.str value]
  r.2.put now key (jser arr2)

/-- `list_lpop`: pop the head; the popped element is returned via
`Value::to_string()`, i.e. JSON-serialized. -/
def list_lpop (e : SlackbaseEngine) (now : Nat) (key : Str) :
    Option Str × SlackbaseEngine :=
  let r := e.get now key
  match r.1.bind parseJson with
  | some (.arr (x :: xs)) => (some (jser x), r.2.put now key (jser (.arr xs)))
  | some _ => (none, r.2)
  | none => (none, r.2)

/-- `list_rpop`: pop the tail, JSON-serialized like `list_lpop`. -/
def list_rpop (e : SlackbaseEngine) (now : Nat) (key : Str) :
    Option Str × SlackbaseEngine :=
  let r := e.get now key
  match r.1.bind parseJson with
  | some (.arr (x :: xs)) =>
    (some (jser ((x :: xs).getLast (by simp))),
     r.2.put now key (jser (.arr ((x :: xs).dropLast))))
  | some _ => (none, r.2)
  | none => (none, r.2)

/-- `list_range`: `isize` index arithmetic — negative indices count from
the tail, `s.max(0).min(len)`, `e.max(0).min(len-1)`, empty result when
`s > e` or the array is empty, else the inclusive slice `vec[s..=e]` with
every element JSON-serialized by `Value::to_string()`. -/
def list_range (e : SlackbaseEngine) (now : Nat) (key : Str) (start finish : Int) :
    Option (List Str) × SlackbaseEngine :=
  let r := e.get now key
  match r.1.bind parseJson with
  | some (.arr xs) =>
    let len : Int := xs.length
    let s0 := if start < 0 then len + start else start
    let e0 := if finish < 0 then len + finish else finish
    let s1 := min (max s0 0) len
    let e1 := min (max e0 0) (len - 1)
    if s1 > e1 ∨ len = 0 then (some [], r.2)
    else (some (((xs.drop s1.toNat).take (e1.toNat - s1.toNat + 1)).map jser), r.2)
  | some _ => (none, r.2)
  | none => (none, r.2)

/-- `list_len`: the array length, `0` on miss/parse failure/non-array. -/
def list_len (e : SlackbaseEngine) (now : Nat) (key : Str) : Nat × SlackbaseEngine :=
  let r := e.get now key
  match r.1.bind parseJson with
  | some (.arr xs) => (xs.length, r.2)
  | some _ => (0, r.2)
  | none => (0, r.2)

end SlackbaseEngine

/-! ## Operation sequences -/

/-- A public mutation of the base KV layer. -/
inductive Op where
  | put (k v : Str)
  | putex (k v : Str) (ttl : Nat)
  | del (k : Str)

/-- Run one timestamped operation. -/
def stepOp (e : SlackbaseEngine) : Nat × Op → SlackbaseEngine
  | (now, .put k v) => e.put now k v
  | (now, .putex k v ttl) => e.putex now k v ttl
  | (now, .del k) => e.delete now k

/-- Run a sequence of timestamped operations. -/
def runOps (e : SlackbaseEngine) (ops : List (Nat × Op)) : SlackbaseEngine :=
  ops.foldl stepOp e

/-- The specification-level current mapping: for each key, the value and
absolute expiry of the last `put`/`putex` not followed by a `delete`. -/
def lastWrite (ops : List (Nat × Op)) (k : Str) : Option (Str × Option Nat) :=
  ops.foldl
    (fun m p =>
      match p.2 with
      | .put k' v => if k' = k then some (v, none) else m
      | .putex k' v ttl => if k' = k then some (v, some (p.1 + ttl)) else m
      | .del k' => if k' = k then none else m)
    none

/-! ## I/O event traces (for the WAL-ordering claim)

`putTrace`/`deleteTrace` list, in program order, the file-system side
effects of `put_internal` and `delete`: the secondary-index save, the WAL
append of the record (`WAL::append` is buffered; the explicit `WAL::flush`
barrier appears in a trace only where the source calls it), the log append,
and the hint rewrite. -/

/-- One file-system side effect. -/
inductive Ev where
  | walAppend (r : Str)
  | walFlush
  | logAppend (r : Str)
  | hintSave
  | secSave
deriving DecidableEq

/-- The side effects of `put_internal`, in source order: secondary-index
save, `WAL::append` (no flush call), log append, hint save. -/
def putTrace (key value : Str) (ex : Option Nat) : List Ev :=
  [.secSave, .walAppend (putRecord key value ex), .logAppend (putRecord key value ex),
   .hintSave]

/-- The side effects of `delete`, in source order: `WAL::append` (no flush
call), log append, secondary-index save, hint save. -/
def deleteTrace (key : Str) : List Ev :=
  [.walAppend (delRecord key), .logAppend (delRecord key), .secSave, .hintSave]

/-- The side effects of `batch` before the replay: buffered WAL appends of
`BEGIN`, the op lines and `END`, then the explicit `WAL::flush` barrier,
then the replay traces of the individual ops. -/
def batchTrace (ops : List BatchOp) : List Ev :=
  .walAppend beginTok :: ops.map (fun op => .walAppend (batchLine op)) ++
    [.walAppend endTok, .walFlush] ++
    (ops.map (fun op =>
      match op with
      | .put k v => putTrace k v none
      | .del k => deleteTrace k)).flatten

/-- Every `logAppend` of a record is preceded by a `walAppend` of the same
record. -/
def walAppendBeforeLog (tr : List Ev) : Prop :=
  ∀ i r, tr.get? i = some (.logAppend r) → ∃ j, j < i ∧ tr.get? j = some (.walAppend r)

/-- Every `logAppend` is preceded by a `walFlush` (what the claim asserts
of individual operations). -/
def walFlushBeforeLog (tr : List Ev) : Prop :=
  ∀ i r, tr.get? i = some (.logAppend r) → ∃ j, j < i ∧ tr.get? j = some Ev.walFlush

/-! ## Lemmas: association maps -/

theorem alookup_nil {α : Type} (k : Str) : alookup ([] : List (Str × α)) k = none := rfl

theorem alookup_cons {α : Type} (p : Str × α) (m : List (Str × α)) (k : Str) :
    alookup (p :: m) k = if p.1 = k then some p.2 else alookup m k := by
  by_cases h : p.1 = k
  · rw [if_pos h]
    simp only [alookup]
    rw [List.find?_cons_of_pos _ (by simpa using h)]
    rfl
  · rw [if_neg h]
    simp only [alookup]
    rw [List.find?_cons_of_neg _ (by simpa using h)]

theorem aerase_cons {α : Type} (p : Str × α) (m : List (Str × α)) (k : Str) :
    aerase (p :: m) k = if p.1 = k then aerase m k else p :: aerase m k := by
  simp only [aerase, List.filter_cons]
  by_cases h : p.1 = k <;> simp [h]

theorem alookup_aerase_self {α : Type} (m : List (Str × α)) (k : Str) :
    alookup (aerase m k) k = none := by
  induction m with
  | nil => rfl
  | cons p m ih =>
    rw [aerase_cons]
    by_cases h : p.1 = k
    · rw [if_pos h]; exact ih
    · rw [if_neg h, alookup_cons, if_neg h]; exact ih

theorem alookup_aerase_ne {α : Type} (m : List (Str × α)) (k k' : Str)
    (h : k' ≠ k) : alookup (aerase m k) k' = alookup m k' := by
  induction m with
  | nil => rfl
  | cons p m ih =>
    rw [aerase_cons, alookup_cons]
    by_cases hp : p.1 = k
    · rw [if_pos hp, if_neg (by rw [hp]; exact fun he => h he.symm)]
      exact ih
    · rw [if_neg hp, alookup_cons]
      by_cases hk' : p.1 = k'
      · rw [if_pos hk', if_pos hk']
      · rw [if_neg hk', if_neg hk']
        exact ih

theorem alookup_ainsert_self {α : Type} (m : List (Str × α)) (k : Str) (v : α) :
    alookup (ainsert m k v) k = some v := by
  simp only [ainsert]
  rw [show ((k, v) :: m.filter (fun p => ¬ p.1 = k)) = ((k, v) :: aerase m k) from rfl]
  rw [alookup_cons]
  simp

theorem alookup_ainsert_ne {α : Type} (m : List (Str × α)) (k k' : Str) (v : α)
    (h : k' ≠ k) : alookup (ainsert m k v) k' = alookup m k' := by
  simp only [ainsert]
  rw [show ((k, v) :: m.filter (fun p => ¬ p.1 = k)) = ((k, v) :: aerase m k) from rfl]
  rw [alookup_cons, if_neg (by simpa using fun he => h he.symm)]
  exact alookup_aerase_ne m k k' h

theorem aerase_eq_self_of_alookup_none {α : Type} (m : List (Str × α)) (k : Str)
    (h : alookup m k = none) : aerase m k = m := by
  induction m with
  | nil => rfl
  | cons p m ih =>
    rw [alookup_cons] at h
    by_cases hp : p.1 = k
    · rw [if_pos hp] at h; exact absurd h (by simp)
    · rw [if_neg hp] at h
      rw [aerase_cons, if_neg hp, ih h]

theorem alookup_take_none {α : Type} (m : List (Str × α)) (k : Str) (n : Nat)
    (h : alookup m k = none) : alookup (m.take n) k = none := by
  induction m generalizing n with
  | nil => simp [alookup_nil]
  | cons p m ih =>
    rw [alookup_cons] at h
    by_cases hp : p.1 = k
    · rw [if_pos hp] at h; exact absurd h (by simp)
    · rw [if_neg hp] at h
      cases n with
      | zero => rfl
      | succ n =>
        rw [List.take_succ_cons, alookup_cons, if_neg hp]
        exact ih n h

theorem alookup_none_iff {α : Type} (m : List (Str × α)) (k : Str) :
    alookup m k = none ↔ ∀ p ∈ m, p.1 ≠ k := by
  induction m with
  | nil => simp [alookup_nil]
  | cons p m ih =>
    rw [alookup_cons]
    by_cases hp : p.1 = k
    · rw [if_pos hp]
      simp only [List.mem_cons]
      constructor
      · intro h; exact absurd h (by simp)
      · intro h; exact absurd hp (h p (Or.inl rfl))
    · rw [if_neg hp]
      simp only [List.mem_cons]
      rw [ih]
      constructor
      · rintro h q (rfl | hq)
        · exact hp
        · exact h q hq
      · intro h q hq
        exact h q (Or.inr hq)

theorem alookup_mem {α : Type} {m : List (Str × α)} {k : Str} {v : α}
    (h : alookup m k = some v) : (k, v) ∈ m := by
  induction m with
  | nil => exact absurd h (by simp [alookup_nil])
  | cons p m ih =>
    rw [alookup_cons] at h
    by_cases hp : p.1 = k
    · rw [if_pos hp] at h
      obtain ⟨p1, p2⟩ := p
      simp only at hp
      have hv : p2 = v := by simpa using h
      rw [List.mem_cons]
      left
      simp [hp, hv]
    · rw [if_neg hp] at h
      exact List.mem_cons_of_mem _ (ih h)

/-! ## Lemmas: trimming and splitting -/

theorem trimEnd_append_ws (xs : Str) (c : Nat) (h : isWS c) :
    trimEnd (xs ++ [c]) = trimEnd xs := by
  simp [trimEnd, List.dropWhile, h]

theorem trimEnd_append_last (xs : Str) (c : Nat) (h : ¬ isWS c = true) :
    trimEnd (xs ++ [c]) = xs ++ [c] := by
  simp [trimEnd, List.dropWhile, h]

theorem trimEnd_append (a b : Str) :
    trimEnd (a ++ b) = if trimEnd b = [] then trimEnd a else a ++ trimEnd b := by
  by_cases hd : trimEnd b = []
  · rw [if_pos hd]
    have h0 : b.reverse.dropWhile isWS = [] := by
      have := congrArg List.reverse hd
      simpa [trimEnd] using this
    simp [trimEnd, List.reverse_append, List.dropWhile_append, h0]
  · rw [if_neg hd]
    have h0 : ¬ b.reverse.dropWhile isWS = [] := fun hh => hd (by simp [trimEnd, hh])
    simp [trimEnd, List.reverse_append, List.dropWhile_append, h0]

theorem trimEnd_nil : trimEnd [] = [] := rfl

theorem trimEnd_sublist (s : Str) : (trimEnd s).Sublist s := by
  have h1 : (s.reverse.dropWhile isWS).Sublist s.reverse := List.dropWhile_sublist _
  have := h1.reverse
  simpa [trimEnd] using this

theorem splitTab_ne_nil (s : Str) : splitTab s ≠ [] := by
  cases s with
  | nil => simp [splitTab]
  | cons b rest =>
    simp only [splitTab]
    by_cases hb : b = TABb
    · simp [hb]
    · rw [if_neg hb]
      cases splitTab rest <;> simp

theorem splitTab_no_tab (a : Str) (h : TABb ∉ a) : splitTab a = [a] := by
  induction a with
  | nil => rfl
  | cons b rest ih =>
    simp only [List.mem_cons, not_or] at h
    simp only [splitTab]
    rw [if_neg (fun hb => h.1 hb.symm), ih h.2]

theorem splitTab_append_tab (a rest : Str) (h : TABb ∉ a) :
    splitTab (a ++ TABb :: rest) = a :: splitTab rest := by
  induction a with
  | nil => simp [splitTab]
  | cons b a' ih =>
    simp only [List.mem_cons, not_or] at h
    simp only [List.cons_append, splitTab, List.append_eq]
    rw [if_neg (fun hb => h.1 hb.symm), ih h.2]

/-! ## Lemmas: base64 -/

theorem b64char_ge (n : Nat) : 43 ≤ b64char n := by
  unfold b64char
  split_ifs <;> omega

theorem b64char_ne_pad (n : Nat) (h : n < 64) : b64char n ≠ padB := by
  unfold b64char padB
  split_ifs <;> omega

theorem b64val_b64char (n : Nat) (h : n < 64) : b64val (b64char n) = some n := by
  unfold b64char b64val
  split_ifs <;> simp_all <;> omega

theorem b64enc_mem_ge (s : Str) : ∀ c ∈ b64enc s, 43 ≤ c := by
  intro c hc
  induction s using b64enc.induct with
  | case1 a b d rest ih =>
    rw [b64enc] at hc
    simp only [List.mem_cons] at hc
    rcases hc with rfl | rfl | rfl | rfl | hc
    any_goals exact b64char_ge _
    exact ih hc
  | case2 a b =>
    rw [b64enc] at hc
    simp only [List.mem_cons] at hc
    rcases hc with rfl | rfl | rfl | rfl | hc
    any_goals exact b64char_ge _
    · unfold padB; omega
    · simp at hc
  | case3 a =>
    rw [b64enc] at hc
    simp only [List.mem_cons] at hc
    rcases hc with rfl | rfl | rfl | rfl | hc
    any_goals exact b64char_ge _
    all_goals first
      | (unfold padB; omega)
      | simp at hc
  | case4 => simp [b64enc] at hc

theorem b64enc_not_ws (s : Str) : ∀ c ∈ b64enc s, ¬ isWS c = true := by
  intro c hc
  have := b64enc_mem_ge s c hc
  simp [isWS]
  omega

theorem b64enc_no_tab (s : Str) : TABb ∉ b64enc s := by
  intro h
  have := b64enc_mem_ge s TABb h
  unfold TABb at this
  omega

theorem b64dec_b64enc (s : Str) (h : ∀ b ∈ s, b < 256) : b64dec (b64enc s) = some s := by
  induction s using b64enc.induct with
  | case1 a b c rest ih =>
    have ha : a < 256 := h a (by simp)
    have hb : b < 256 := h b (by simp)
    have hcc : c < 256 := h c (by simp)
    have h1 := b64val_b64char (a / 4) (by omega)
    have h2 := b64val_b64char (a % 4 * 16 + b / 16) (by omega)
    have h3 := b64val_b64char (b % 16 * 4 + c / 64) (by omega)
    have h4 := b64val_b64char (c % 64) (by omega)
    have n3 := b64char_ne_pad (b % 16 * 4 + c / 64) (by omega)
    have n4 := b64char_ne_pad (c % 64) (by omega)
    have ihh := ih (fun x hx => h x (by simp [hx]))
    rw [b64enc, b64dec]
    simp only [h1, h2]
    rw [if_neg n3]
    simp only [h3]
    rw [if_neg n4]
    simp only [h4, ihh]
    have e1 : a / 4 * 4 + (a % 4 * 16 + b / 16) / 16 = a := by omega
    have e2 : (a % 4 * 16 + b / 16) % 16 * 16 + (b % 16 * 4 + c / 64) / 4 = b := by omega
    have e3 : (b % 16 * 4 + c / 64) % 4 * 64 + c % 64 = c := by omega
    rw [e1, e2, e3]
  | case2 a b =>
    have ha : a < 256 := h a (by simp)
    have hb : b < 256 := h b (by simp)
    have h1 := b64val_b64char (a / 4) (by omega)
    have h2 := b64val_b64char (a % 4 * 16 + b / 16) (by omega)
    have h3 := b64val_b64char (b % 16 * 4) (by omega)
    have n3 := b64char_ne_pad (b % 16 * 4) (by omega)
    rw [b64enc, b64dec]
    simp only [h1, h2]
    rw [if_neg n3]
    simp only [h3, if_true, true_and]
    rw [if_pos (show b % 16 * 4 % 4 = 0 by omega)]
    have e1 : a / 4 * 4 + (a % 4 * 16 + b / 16) / 16 = a := by omega
    have e2 : (a % 4 * 16 + b / 16) % 16 * 16 + b % 16 * 4 / 4 = b := by omega
    rw [e1, e2]
  | case3 a =>
    have ha : a < 256 := h a (by simp)
    have h1 := b64val_b64char (a / 4) (by omega)
    have h2 := b64val_b64char (a % 4 * 16) (by omega)
    rw [b64enc, b64dec]
    simp only [h1, h2, if_true, true_and]
    rw [if_pos (show a % 4 * 16 % 16 = 0 by omega)]
    have e1 : a / 4 * 4 + a % 4 * 16 / 16 = a := by omega
    rw [e1]
  | case4 => rfl

/-! ## Lemmas: decimal digits -/

theorem natDigsGo_fuel (f1 : Nat) : ∀ f2 n, n < f1 → n < f2 →
    natDigsGo f1 n = natDigsGo f2 n := by
  induction f1 with
  | zero => omega
  | succ f1 ih =>
    intro f2 n h1 h2
    cases f2 with
    | zero => omega
    | succ f2 =>
      simp only [natDigsGo]
      by_cases hlt : n < 10
      · rw [if_pos hlt, if_pos hlt]
      · rw [if_neg hlt, if_neg hlt]
        have hdiv : n / 10 < n := Nat.div_lt_self (by omega) (by omega)
        rw [ih f2 (n / 10) (by omega) (by omega)]

theorem natDigs_eq (n : Nat) :
    natDigs n = if n < 10 then [48 + n] else natDigs (n / 10) ++ [48 + n % 10] := by
  unfold natDigs
  rw [natDigsGo]
  by_cases hlt : n < 10
  · rw [if_pos hlt, if_pos hlt]
  · rw [if_neg hlt, if_neg hlt]
    have hdiv : n / 10 < n := Nat.div_lt_self (by omega) (by omega)
    rw [natDigsGo_fuel n (n / 10 + 1) (n / 10) (by omega) (by omega)]

theorem natDigs_ne_nil (n : Nat) : natDigs n ≠ [] := by
  rw [natDigs_eq]
  split_ifs <;> simp

theorem natDigs_mem_digit (n : Nat) : ∀ b ∈ natDigs n, 48 ≤ b ∧ b ≤ 57 := by
  induction n using Nat.strong_induction_on with
  | _ n ih =>
    rw [natDigs_eq]
    by_cases hlt : n < 10
    · rw [if_pos hlt]
      intro b hb
      simp only [List.mem_singleton] at hb
      omega
    · rw [if_neg hlt]
      intro b hb
      rcases List.mem_append.mp hb with hb | hb
      · exact ih (n / 10) (Nat.div_lt_self (by omega) (by omega)) b hb
      · simp only [List.mem_singleton] at hb
        have : n % 10 < 10 := Nat.mod_lt _ (by omega)
        omega

theorem natDigs_no_tab (n : Nat) : TABb ∉ natDigs n := by
  intro h
  have := natDigs_mem_digit n TABb h
  unfold TABb at this
  omega

theorem natDigs_last_not_ws (n : Nat) :
    ∃ a c, natDigs n = a ++ [c] ∧ ¬ isWS c = true := by
  rw [natDigs_eq]
  by_cases hlt : n < 10
  · refine ⟨[], 48 + n, by rw [if_pos hlt, List.nil_append], ?_⟩
    simp [isWS]
    omega
  · refine ⟨natDigs (n / 10), 48 + n % 10, by rw [if_neg hlt], ?_⟩
    simp [isWS]
    omega

theorem natDigs_foldl (n : Nat) (a : Nat) :
    (natDigs n).foldl (fun acc b => acc * 10 + (b - 48)) a =
      a * 10 ^ (natDigs n).length + n := by
  induction n using Nat.strong_induction_on generalizing a with
  | _ n ih =>
    rw [natDigs_eq]
    by_cases hlt : n < 10
    · rw [if_pos hlt]
      simp only [List.foldl_cons, List.foldl_nil, List.length_singleton, pow_one]
      omega
    · rw [if_neg hlt, List.foldl_append,
        ih (n / 10) (Nat.div_lt_self (by omega) (by omega))]
      simp only [List.foldl_cons, List.foldl_nil, List.length_append, List.length_singleton]
      rw [pow_succ]
      have hd : 48 + n % 10 - 48 = n % 10 := by omega
      rw [hd, Nat.add_mul, Nat.add_assoc, ← Nat.mul_assoc]
      congr 1
      omega

/-! ## Well-formedness and file extents -/

/-- A byte string (each element is an actual byte). -/
def wfStr (s : Str) : Prop := ∀ b ∈ s, b < 256

/-- A well-formed key (spec §3: keys must not contain TAB or LF). -/
def wfKey (k : Str) : Prop := wfStr k ∧ TABb ∉ k ∧ LFb ∉ k

instance (s : Str) : Decidable (wfStr s) := by unfold wfStr; infer_instance

instance (k : Str) : Decidable (wfKey k) := by unfold wfKey; infer_instance

/-- `(off, len)` addresses exactly the bytes `l` inside `file`. -/
def extractsTo (file : Str) (off len : Nat) (l : Str) : Prop :=
  off + len ≤ file.length ∧ (file.drop off).take len = l

theorem extractsTo_append (file g : Str) (off len : Nat) (l : Str)
    (h : extractsTo file off len l) : extractsTo (file ++ g) off len l := by
  obtain ⟨hle, hsl⟩ := h
  constructor
  · simp
    omega
  · rw [List.drop_append_of_le_length (by omega)]
    rw [List.take_append_of_le_length (by simp; omega)]
    exact hsl

theorem extractsTo_self_append (file l : Str) :
    extractsTo (file ++ l) file.length l.length l := by
  constructor
  · simp
  · rw [List.drop_left, List.take_of_length_le (le_refl _)]

theorem read_record_slice_of_extractsTo (file : Str) (off len : Nat) (l : Str)
    (h : extractsTo file off len l) :
    read_record_slice file off len = some (trimEnd l) := by
  obtain ⟨hle, hsl⟩ := h
  rw [read_record_slice, if_neg (by omega), hsl]

theorem parseNat_natDigs (n : Nat) : parseNat (natDigs n) = some n := by
  unfold parseNat
  rw [if_neg (natDigs_ne_nil n)]
  rw [if_pos]
  · rw [natDigs_foldl]
    simp
  · rw [List.all_eq_true]
    intro b hb
    have := natDigs_mem_digit n b hb
    simp
    omega

/-! ## Parsing the engine's own records back (the `get` disk path) -/

theorem putTok_last_not_ws : ∃ a c, putTok = a ++ [c] ∧ ¬ isWS c = true := by
  exact ⟨[112, 117], 116, rfl, by decide⟩

theorem b64enc_last_not_ws (v : Str) (hv : v ≠ []) :
    ∃ a c, b64enc v = a ++ [c] ∧ ¬ isWS c = true := by
  have hne : b64enc v ≠ [] := by
    cases v with
    | nil => exact absurd rfl hv
    | cons a rest =>
      cases rest with
      | nil => simp [b64enc]
      | cons b rest2 =>
        cases rest2 <;> simp [b64enc]
  refine ⟨(b64enc v).dropLast, (b64enc v).getLast hne, (List.dropLast_append_getLast hne).symm, ?_⟩
  exact b64enc_not_ws v _ (List.getLast_mem hne)

theorem trimEnd_eq_self_of_last (s : Str) (h : ∃ a c, s = a ++ [c] ∧ ¬ isWS c = true) :
    trimEnd s = s := by
  obtain ⟨a, c, rfl, hc⟩ := h
  exact trimEnd_append_last a c hc

/-- The trimmed, split form of a `put` record with an expiry. -/
theorem parts_put_exp (k v : Str) (ts : Nat) (hk : TABb ∉ k) :
    splitTab (trimEnd (putRecord k v (some ts) ++ [LFb])) =
      [putTok, k, b64enc v, natDigs ts] := by
  rw [trimEnd_append_ws _ LFb (by decide)]
  have hrec : trimEnd (putRecord k v (some ts)) = putRecord k v (some ts) := by
    apply trimEnd_eq_self_of_last
    obtain ⟨a, c, hac, hc⟩ := natDigs_last_not_ws ts
    refine ⟨putTok ++ TABb :: k ++ TABb :: b64enc v ++ TABb :: a, c, ?_, hc⟩
    simp [putRecord, hac]
  rw [hrec]
  have h1 : putRecord k v (some ts) =
      putTok ++ TABb :: (k ++ TABb :: (b64enc v ++ TABb :: natDigs ts)) := by
    simp [putRecord]
  rw [h1, splitTab_append_tab _ _ (by decide), splitTab_append_tab _ _ hk,
    splitTab_append_tab _ _ (b64enc_no_tab v), splitTab_no_tab _ (natDigs_no_tab ts)]

/-- The trimmed, split form of a `put` record with no expiry and a nonempty
value. -/
theorem parts_put_noexp (k v : Str) (hk : TABb ∉ k) (hv : v ≠ []) :
    splitTab (trimEnd (putRecord k v none ++ [LFb])) = [putTok, k, b64enc v] := by
  rw [trimEnd_append_ws _ LFb (by decide)]
  have hshape : putRecord k v none =
      (putTok ++ TABb :: k ++ [TABb] ++ b64enc v) ++ [TABb] := by
    simp [putRecord]
  rw [hshape, trimEnd_append_ws _ TABb (by decide)]
  have hrec : trimEnd (putTok ++ TABb :: k ++ [TABb] ++ b64enc v) =
      putTok ++ TABb :: k ++ [TABb] ++ b64enc v := by
    apply trimEnd_eq_self_of_last
    obtain ⟨a, c, hac, hc⟩ := b64enc_last_not_ws v hv
    refine ⟨putTok ++ TABb :: k ++ [TABb] ++ a, c, ?_, hc⟩
    simp [hac]
  rw [hrec]
  have h1 : putTok ++ TABb :: k ++ [TABb] ++ b64enc v =
      putTok ++ TABb :: (k ++ TABb :: b64enc v) := by
    simp
  rw [h1, splitTab_append_tab _ _ (by decide), splitTab_append_tab _ _ hk,
    splitTab_no_tab _ (b64enc_no_tab v)]

/-- The trimmed, split form of a `put` record with no expiry and an empty
value: fewer than three fields survive `trim_end`, so `get` misses. -/
theorem parts_put_empty (k : Str) (hk : TABb ∉ k) :
    (splitTab (trimEnd (putRecord k [] none ++ [LFb]))).length < 3 := by
  rw [trimEnd_append_ws _ LFb (by decide)]
  have hshape : putRecord k [] none = ((putTok ++ [TABb]) ++ k ++ [TABb]) ++ [TABb] := by
    simp [putRecord, b64enc]
  rw [hshape, trimEnd_append_ws _ TABb (by decide), trimEnd_append_ws _ TABb (by decide)]
  rw [show putTok ++ [TABb] ++ k = (putTok ++ [TABb]) ++ k from rfl]
  rw [trimEnd_append]
  by_cases hke : trimEnd k = []
  · rw [if_pos hke]
    have : trimEnd (putTok ++ [TABb]) = putTok := by
      rw [trimEnd_append_ws _ TABb (by decide)]
      exact trimEnd_eq_self_of_last _ putTok_last_not_ws
    rw [this, splitTab_no_tab _ (by decide)]
    simp
  · rw [if_neg hke]
    have hkt : TABb ∉ trimEnd k := fun hm => hk ((trimEnd_sublist k).mem hm)
    rw [show putTok ++ [TABb] ++ trimEnd k = putTok ++ TABb :: trimEnd k by simp]
    rw [splitTab_append_tab _ _ (by decide), splitTab_no_tab _ hkt]
    simp

/-! ## Behaviour of `get`, branch by branch -/

namespace SlackbaseEngine

theorem get_hit (e : SlackbaseEngine) (now : Nat) (key v : Str)
    (h : lruFind e.lru key = some v) :
    e.get now key = (some v,
      { e with readOps := e.readOps + 1, hits := e.hits + 1,
               lru := lruPromote e.lru key v }) := by
  simp only [get, h]

theorem get_miss_noindex (e : SlackbaseEngine) (now : Nat) (key : Str)
    (h1 : lruFind e.lru key = none) (h2 : alookup e.index key = none) :
    e.get now key = (none, { e with readOps := e.readOps + 1 }) := by
  simp only [get, h1, h2]

theorem get_disk_noexp (e : SlackbaseEngine) (now : Nat) (key v : Str) (off : Nat)
    (h1 : lruFind e.lru key = none)
    (h2 : alookup e.index key = some (off, (putRecord key v none).length + 1))
    (h3 : extractsTo e.file off ((putRecord key v none).length + 1)
      (putRecord key v none ++ [LFb]))
    (hk : TABb ∉ key) (hv : wfStr v) (hne : v ≠ []) :
    e.get now key = (some v,
      { e with readOps := e.readOps + 1, hits := e.hits + 1,
               lru := lruPut e.lru key v }) := by
  have h4 := read_record_slice_of_extractsTo _ _ _ _ h3
  have h5 := parts_put_noexp key v hk hne
  simp only [get, h1, h2, h4, h5]
  rw [if_neg (by simp [putTok])]
  rw [if_neg (by simp)]
  simp only [List.get?]
  rw [show (some (b64enc v)).getD [] = b64enc v from rfl, b64dec_b64enc v hv]
  simp [deserializePlain]

theorem get_disk_empty (e : SlackbaseEngine) (now : Nat) (key : Str) (off : Nat)
    (h1 : lruFind e.lru key = none)
    (h2 : alookup e.index key = some (off, (putRecord key [] none).length + 1))
    (h3 : extractsTo e.file off ((putRecord key [] none).length + 1)
      (putRecord key [] none ++ [LFb]))
    (hk : TABb ∉ key) :
    e.get now key = (none,
      { e with readOps := e.readOps + 1, misses := e.misses + 1 }) := by
  have h4 := read_record_slice_of_extractsTo _ _ _ _ h3
  simp only [get, h1, h2, h4]
  rw [if_pos (Or.inl (parts_put_empty key hk))]

theorem get_disk_expired (e : SlackbaseEngine) (now : Nat) (key v : Str)
    (off ts : Nat)
    (h1 : lruFind e.lru key = none)
    (h2 : alookup e.index key = some (off, (putRecord key v (some ts)).length + 1))
    (h3 : extractsTo e.file off ((putRecord key v (some ts)).length + 1)
      (putRecord key v (some ts) ++ [LFb]))
    (hk : TABb ∉ key) (hex : now > ts) :
    e.get now key = (none,
      { e with readOps := e.readOps + 1, misses := e.misses + 1 }) := by
  have h4 := read_record_slice_of_extractsTo _ _ _ _ h3
  have h5 := parts_put_exp key v ts hk
  simp only [get, h1, h2, h4, h5]
  rw [if_neg (by simp [putTok])]
  rw [if_pos (by refine ⟨by simp, by simp [natDigs_ne_nil ts]⟩)]
  simp only [List.get?]
  simp only [show (some (natDigs ts)).getD [] = natDigs ts from rfl, parseNat_natDigs]
  rw [if_pos hex]

theorem get_disk_exp_live (e : SlackbaseEngine) (now : Nat) (key v : Str)
    (off ts : Nat)
    (h1 : lruFind e.lru key = none)
    (h2 : alookup e.index key = some (off, (putRecord key v (some ts)).length + 1))
    (h3 : extractsTo e.file off ((putRecord key v (some ts)).length + 1)
      (putRecord key v (some ts) ++ [LFb]))
    (hk : TABb ∉ key) (hv : wfStr v) (hex : ¬ now > ts) :
    e.get now key = (some v,
      { e with readOps := e.readOps + 1, hits := e.hits + 1,
               lru := lruPut e.lru key v }) := by
  have h4 := read_record_slice_of_extractsTo _ _ _ _ h3
  have h5 := parts_put_exp key v ts hk
  simp only [get, h1, h2, h4, h5]
  rw [if_neg (by simp [putTok])]
  rw [if_pos (by refine ⟨by simp, by simp [natDigs_ne_nil ts]⟩)]
  simp only [List.get?]
  simp only [show (some (natDigs ts)).getD [] = natDigs ts from rfl, parseNat_natDigs]
  rw [if_neg hex]
  rw [show (some (b64enc v)).getD [] = b64enc v from rfl, b64dec_b64enc v hv]
  simp [deserializePlain]

/-- The shape of every `get` result: only the cache and the counters of the
state change, and the cache changes only by promoting or inserting the
returned value at `key`. -/
theorem get_shape (e : SlackbaseEngine) (now : Nat) (key : Str) :
    ∃ res l h m, e.get now key =
      (res, { e with lru := l, readOps := e.readOps + 1, hits := h, misses := m }) ∧
      (l = e.lru ∨ ∃ v, res = some v ∧
        (l = lruPromote e.lru key v ∨ l = lruPut e.lru key v)) := by
  unfold get
  rcases hc : lruFind e.lru key with _ | v
  case some =>
    simp only [hc]
    exact ⟨_, _, _, _, rfl, Or.inr ⟨v, rfl, Or.inl rfl⟩⟩
  simp only [hc]
  rcases hi : alookup e.index key with _ | ol
  · simp only [hi]
    exact ⟨_, _, _, _, rfl, Or.inl rfl⟩
  simp only [hi]
  rcases hs : read_record_slice e.file ol.1 ol.2 with _ | raw
  · simp only [hs]
    exact ⟨_, _, _, _, rfl, Or.inl rfl⟩
  simp only [hs]
  by_cases hif : (splitTab raw).length < 3 ∨ ¬ (splitTab raw).headD [] = putTok
  · rw [if_pos hif]
    exact ⟨_, _, _, _, rfl, Or.inl rfl⟩
  rw [if_neg hif]
  by_cases hif2 : 4 ≤ (splitTab raw).length ∧ ¬ ((splitTab raw).get? 3).getD [] = []
  · rw [if_pos hif2]
    rcases hp : parseNat (((splitTab raw).get? 3).getD []) with _ | ex
    · simp only [hp]
      exact ⟨_, _, _, _, rfl, Or.inl rfl⟩
    simp only [hp]
    by_cases hex : now > ex
    · rw [if_pos hex]
      exact ⟨_, _, _, _, rfl, Or.inl rfl⟩
    rw [if_neg hex]
    rcases hb : b64dec (((splitTab raw).get? 2).getD []) with _ | bytes
    · simp only [hb]
      exact ⟨_, _, _, _, rfl, Or.inl rfl⟩
    simp only [hb, deserializePlain]
    exact ⟨_, _, _, _, rfl, Or.inr ⟨bytes, rfl, Or.inr rfl⟩⟩
  rw [if_neg hif2]
  rcases hb : b64dec (((splitTab raw).get? 2).getD []) with _ | bytes
  · simp only [hb]
    exact ⟨_, _, _, _, rfl, Or.inl rfl⟩
  simp only [hb, deserializePlain]
  exact ⟨_, _, _, _, rfl, Or.inr ⟨bytes, rfl, Or.inr rfl⟩⟩

/-- `get` only touches the cache and the counters. -/
theorem get_fields (e : SlackbaseEngine) (now : Nat) (key : Str) :
    (e.get now key).2.file = e.file ∧ (e.get now key).2.index = e.index ∧
    (e.get now key).2.secIndex = e.secIndex ∧ (e.get now key).2.wal = e.wal ∧
    (e.get now key).2.writeBuffer = e.writeBuffer := by
  obtain ⟨res, l, h, m, heq, _⟩ := get_shape e now key
  rw [heq]
  exact ⟨rfl, rfl, rfl, rfl, rfl⟩

/-- Any cache entry of the state after a `get` was already cached, or is the
pair `(key, returned value)`. -/
theorem get_lru_sub (e : SlackbaseEngine) (now : Nat) (key : Str) (p : Str × Str)
    (hp : p ∈ (e.get now key).2.lru) :
    p ∈ e.lru ∨ (p.1 = key ∧ (e.get now key).1 = some p.2) := by
  obtain ⟨res, l, h, m, heq, hl⟩ := get_shape e now key
  rw [heq] at hp ⊢
  simp only at hp
  rcases hl with rfl | ⟨v, rfl, hl⟩
  · exact Or.inl hp
  rcases hl with rfl | rfl
  · rcases List.mem_cons.mp hp with rfl | hm
    · exact Or.inr ⟨rfl, rfl⟩
    · exact Or.inl (List.mem_of_mem_filter hm)
  · rcases List.mem_cons.mp (List.mem_of_mem_take hp) with rfl | hm
    · exact Or.inr ⟨rfl, rfl⟩
    · exact Or.inl (List.mem_of_mem_filter hm)

end SlackbaseEngine

/-! ## Reachable states and the engine invariant -/

/-- Well-formedness of one operation: keys contain no TAB/LF (spec §3),
and all strings are byte strings. -/
def Op.wf : Op → Prop
  | .put k v => wfKey k ∧ wfStr v
  | .putex k v _ => wfKey k ∧ wfStr v
  | .del k => wfKey k

instance (op : Op) : Decidable op.wf := by
  cases op <;> simp only [Op.wf] <;> infer_instance

/-- All operations of a sequence are well-formed. -/
def wfOps (ops : List (Nat × Op)) : Prop := ∀ p ∈ ops, p.2.wf

instance (ops : List (Nat × Op)) : Decidable (wfOps ops) := by
  unfold wfOps
  infer_instance

theorem lastWrite_append_one (ops : List (Nat × Op)) (p : Nat × Op) (k : Str) :
    lastWrite (ops ++ [p]) k =
      (match p.2 with
       | .put k' v => if k' = k then some (v, none) else lastWrite ops k
       | .putex k' v ttl => if k' = k then some (v, some (p.1 + ttl)) else lastWrite ops k
       | .del k' => if k' = k then none else lastWrite ops k) := by
  unfold lastWrite
  rw [List.foldl_append]
  rfl

theorem lastWrite_wf (ops : List (Nat × Op)) (k v : Str) (ex : Option Nat)
    (hw : wfOps ops) (h : lastWrite ops k = some (v, ex)) : wfKey k ∧ wfStr v := by
  induction ops using List.reverseRecOn with
  | nil => exact absurd h (by simp [lastWrite])
  | append_singleton ops p ih =>
    have hw' : wfOps ops := fun q hq => hw q (List.mem_append_left _ hq)
    have hwp : p.2.wf := hw p (List.mem_append_right _ (by simp))
    rw [lastWrite_append_one] at h
    rcases hp : p.2 with ⟨k', v'⟩ | ⟨k', v', ttl⟩ | k'
    all_goals simp only [hp] at h
    all_goals simp only [hp, Op.wf] at hwp
    · by_cases hk : k' = k
      · rw [if_pos hk] at h
        obtain ⟨h1, h2⟩ := Prod.mk.injEq .. ▸ (Option.some_inj.mp h)
        exact ⟨hk ▸ hwp.1, h1 ▸ hwp.2⟩
      · rw [if_neg hk] at h
        exact ih hw' h
    · by_cases hk : k' = k
      · rw [if_pos hk] at h
        obtain ⟨h1, h2⟩ := Prod.mk.injEq .. ▸ (Option.some_inj.mp h)
        exact ⟨hk ▸ hwp.1, h1 ▸ hwp.2⟩
      · rw [if_neg hk] at h
        exact ih hw' h
    · by_cases hk : k' = k
      · rw [if_pos hk] at h
        exact absurd h (by simp)
      · rw [if_neg hk] at h
        exact ih hw' h

/-- The invariant tying a reachable engine state to the operation history:
the offset index addresses exactly the latest live `put` record of every
live key, dead keys are unindexed, every cache entry carries the latest
written value of its key, and the write buffer is drained. -/
structure Reach (ops : List (Nat × Op)) (e : SlackbaseEngine) : Prop where
  idx_none : ∀ k, lastWrite ops k = none → alookup e.index k = none
  idx_some : ∀ k v ex, lastWrite ops k = some (v, ex) →
    ∃ off, alookup e.index k = some (off, (putRecord k v ex).length + 1) ∧
      extractsTo e.file off ((putRecord k v ex).length + 1) (putRecord k v ex ++ [LFb])
  cache : ∀ p ∈ e.lru, ∃ ex, lastWrite ops p.1 = some (p.2, ex)
  buf : e.writeBuffer = []

theorem Reach.start : Reach [] SlackbaseEngine.empty := by
  refine ⟨fun k _ => rfl, fun k v ex h => absurd h (by simp [lastWrite]), ?_, rfl⟩
  intro p hp
  exact absurd hp (by simp [SlackbaseEngine.empty, SlackbaseEngine.openWith])

/-- What `get` returns and preserves on a reachable state: it is sound (a
returned value is the latest written value), complete for unexpired records
(up to the empty-value/eviction anomaly), and preserves the invariant. -/
theorem get_reach (ops : List (Nat × Op)) (e : SlackbaseEngine) (now : Nat) (k : Str)
    (hw : wfOps ops) (hr : Reach ops e) :
    (∀ v, (e.get now k).1 = some v → ∃ ex, lastWrite ops k = some (v, ex)) ∧
    (lastWrite ops k = none → (e.get now k).1 = none) ∧
    (∀ v, lastWrite ops k = some (v, none) → v ≠ [] → (e.get now k).1 = some v) ∧
    (∀ v ex, lastWrite ops k = some (v, some ex) → ¬ now > ex →
      (e.get now k).1 = some v) ∧
    Reach ops (e.get now k).2 := by
  have hsound : ∀ v, (e.get now k).1 = some v → ∃ ex, lastWrite ops k = some (v, ex) := by
    intro v hres
    rcases hc : lruFind e.lru k with _ | v0
    · rcases hlw : lastWrite ops k with _ | ⟨v0, ex0⟩
      · rw [SlackbaseEngine.get_miss_noindex e now k hc (hr.idx_none k hlw)] at hres
        exact absurd hres (by simp)
      · obtain ⟨off, hidx, hext⟩ := hr.idx_some k v0 ex0 hlw
        obtain ⟨hk', hv'⟩ := lastWrite_wf ops k v0 ex0 hw hlw
        rcases ex0 with _ | ts
        · by_cases hne : v0 = []
          · subst hne
            rw [SlackbaseEngine.get_disk_empty e now k off hc hidx hext hk'.2.1] at hres
            exact absurd hres (by simp)
          · rw [SlackbaseEngine.get_disk_noexp e now k v0 off hc hidx hext
              hk'.2.1 hv' hne] at hres
            have hv0 : v0 = v := by
              have h0 : some v0 = some v := hres
              exact Option.some_inj.mp h0
            exact ⟨none, by rw [hv0]⟩
        · by_cases hex : now > ts
          · rw [SlackbaseEngine.get_disk_expired e now k v0 off ts hc hidx hext
              hk'.2.1 hex] at hres
            exact absurd hres (by simp)
          · rw [SlackbaseEngine.get_disk_exp_live e now k v0 off ts hc hidx hext
              hk'.2.1 hv' hex] at hres
            have hv0 : v0 = v := by
              have h0 : some v0 = some v := hres
              exact Option.some_inj.mp h0
            exact ⟨some ts, by rw [hv0]⟩
    · rw [SlackbaseEngine.get_hit e now k v0 hc] at hres
      obtain ⟨ex, hl⟩ := hr.cache (k, v0) (alookup_mem hc)
      have hv0 : v0 = v := by
        have h0 : some v0 = some v := hres
        exact Option.some_inj.mp h0
      exact ⟨ex, hl.trans (by rw [hv0])⟩
  refine ⟨hsound, ?_, ?_, ?_, ?_⟩
  · intro hlw
    rcases hc : lruFind e.lru k with _ | v0
    · rw [SlackbaseEngine.get_miss_noindex e now k hc (hr.idx_none k hlw)]
    · obtain ⟨ex, hl⟩ := hr.cache (k, v0) (alookup_mem hc)
      rw [hlw] at hl
      exact absurd hl (by simp)
  · intro v hlw hne
    rcases hc : lruFind e.lru k with _ | v0
    · obtain ⟨off, hidx, hext⟩ := hr.idx_some k v none hlw
      obtain ⟨hk', hv'⟩ := lastWrite_wf ops k v none hw hlw
      rw [SlackbaseEngine.get_disk_noexp e now k v off hc hidx hext hk'.2.1 hv' hne]
    · obtain ⟨ex, hl⟩ := hr.cache (k, v0) (alookup_mem hc)
      rw [hlw] at hl
      obtain ⟨h1, _⟩ := Prod.mk.injEq .. ▸ (Option.some_inj.mp hl)
      rw [SlackbaseEngine.get_hit e now k v0 hc, h1]
  · intro v ex hlw hex
    rcases hc : lruFind e.lru k with _ | v0
    · obtain ⟨off, hidx, hext⟩ := hr.idx_some k v (some ex) hlw
      obtain ⟨hk', hv'⟩ := lastWrite_wf ops k v (some ex) hw hlw
      rw [SlackbaseEngine.get_disk_exp_live e now k v off ex hc hidx hext
        hk'.2.1 hv' hex]
    · obtain ⟨ex', hl⟩ := hr.cache (k, v0) (alookup_mem hc)
      rw [hlw] at hl
      obtain ⟨h1, _⟩ := Prod.mk.injEq .. ▸ (Option.some_inj.mp hl)
      rw [SlackbaseEngine.get_hit e now k v0 hc, h1]
  · obtain ⟨hf, hi, hs, hwal, hb⟩ := SlackbaseEngine.get_fields e now k
    refine ⟨fun k' h => hi ▸ hr.idx_none k' h,
      fun k' v ex h => ?_, ?_, hb ▸ hr.buf⟩
    · obtain ⟨off, h1, h2⟩ := hr.idx_some k' v ex h
      exact ⟨off, hi ▸ h1, hf ▸ h2⟩
    · intro p hp
      rcases SlackbaseEngine.get_lru_sub e now k p hp with hm | ⟨hpk, hres⟩
      · exact hr.cache p hm
      · obtain ⟨ex, hl⟩ := hsound p.2 hres
        exact ⟨ex, hpk ▸ hl⟩

/-- The full state after `put_internal`, with the inner `get` exposed. -/
theorem put_internal_shape (e : SlackbaseEngine) (now : Nat) (k v : Str)
    (exp : Option Nat) :
    ∃ res l hh mm,
      ({ e with writeOps := e.writeOps + 1 } : SlackbaseEngine).get now k =
        (res, { e with
                writeOps := e.writeOps + 1
                lru := l
                readOps := e.readOps + 1
                hits := hh
                misses := mm }) ∧
      (l = e.lru ∨ ∃ v0, res = some v0 ∧
        (l = lruPromote e.lru k v0 ∨ l = lruPut e.lru k v0)) ∧
      e.put_internal now k v exp =
        { file := e.file ++ putRecord k v exp ++ [LFb],
          index := ainsert e.index k (e.file.length, (putRecord k v exp).length + 1),
          secIndex := secUpdate e.secIndex k res (some v),
          lru := lruPut l k v,
          wal := e.wal ++ (e.writeBuffer ++ [putRecord k v exp]),
          writeBuffer := [],
          readOps := e.readOps + 1, writeOps := e.writeOps + 1,
          hits := hh, misses := mm } := by
  obtain ⟨res, l, hh, mm, heq, hl⟩ :=
    SlackbaseEngine.get_shape { e with writeOps := e.writeOps + 1 } now k
  refine ⟨res, l, hh, mm, heq, hl, ?_⟩
  simp only [SlackbaseEngine.put_internal, heq, SlackbaseEngine.flushBuffer, append_record]

/-- The full state after `delete`, with the inner `get` exposed. -/
theorem delete_shape (e : SlackbaseEngine) (now : Nat) (k : Str) :
    ∃ res l hh mm,
      ({ e with writeOps := e.writeOps + 1 } : SlackbaseEngine).get now k =
        (res, { e with
                writeOps := e.writeOps + 1
                lru := l
                readOps := e.readOps + 1
                hits := hh
                misses := mm }) ∧
      (l = e.lru ∨ ∃ v0, res = some v0 ∧
        (l = lruPromote e.lru k v0 ∨ l = lruPut e.lru k v0)) ∧
      e.delete now k =
        { file := e.file ++ delRecord k ++ [LFb],
          index := aerase e.index k,
          secIndex := secUpdate e.secIndex k res none,
          lru := lruPop l k,
          wal := e.wal ++ (e.writeBuffer ++ [delRecord k]),
          writeBuffer := [],
          readOps := e.readOps + 1, writeOps := e.writeOps + 1,
          hits := hh, misses := mm } := by
  obtain ⟨res, l, hh, mm, heq, hl⟩ :=
    SlackbaseEngine.get_shape { e with writeOps := e.writeOps + 1 } now k
  refine ⟨res, l, hh, mm, heq, hl, ?_⟩
  simp only [SlackbaseEngine.delete, heq, SlackbaseEngine.flushBuffer, append_record]

theorem mem_aerase {α : Type} (m : List (Str × α)) (k : Str) (p : Str × α)
    (hp : p ∈ aerase m k) : p ∈ m ∧ ¬ p.1 = k := by
  have := List.mem_filter.mp hp
  exact ⟨this.1, by simpa using this.2⟩

/-- `put_internal` preserves the invariant, for any history whose
`lastWrite` records the new binding. -/
theorem reach_after_put_internal (ops : List (Nat × Op)) (e : SlackbaseEngine)
    (now : Nat) (k v : Str) (exp : Option Nat)
    (hw : wfOps ops) (hr : Reach ops e)
    (newOps : List (Nat × Op))
    (hlw : ∀ k', lastWrite newOps k' =
      if k = k' then some (v, exp) else lastWrite ops k') :
    Reach newOps (e.put_internal now k v exp) := by
  obtain ⟨res, l, hh, mm, heq, hl, hput⟩ := put_internal_shape e now k v exp
  have hr1 : Reach ops { e with writeOps := e.writeOps + 1 } :=
    ⟨hr.idx_none, hr.idx_some, hr.cache, hr.buf⟩
  have hg := get_reach ops { e with writeOps := e.writeOps + 1 } now k hw hr1
  rw [hput]
  have hlmem : ∀ p : Str × Str, p ∈ l → ¬ p.1 = k → p ∈ e.lru := by
    intro p hp hpk
    rcases hl with rfl | ⟨v0, _, rfl | rfl⟩
    · exact hp
    · rcases List.mem_cons.mp hp with rfl | hm
      · exact absurd rfl hpk
      · exact (mem_aerase _ _ _ hm).1
    · rcases List.mem_cons.mp (List.mem_of_mem_take hp) with rfl | hm
      · exact absurd rfl hpk
      · exact (mem_aerase _ _ _ hm).1
  refine ⟨?_, ?_, ?_, rfl⟩
  · intro k' h
    rw [hlw k'] at h
    by_cases hk : k = k'
    · rw [if_pos hk] at h
      exact absurd h (by simp)
    · rw [if_neg hk] at h
      simp only
      rw [alookup_ainsert_ne _ _ _ _ (fun he => hk he.symm)]
      exact hr.idx_none k' h
  · intro k' v' ex' h
    rw [hlw k'] at h
    by_cases hk : k = k'
    · rw [if_pos hk] at h
      obtain ⟨h1, h2⟩ := Prod.mk.injEq .. ▸ (Option.some_inj.mp h)
      subst hk
      subst h1
      subst h2
      refine ⟨e.file.length, ?_, ?_⟩
      · simp only
        rw [alookup_ainsert_self]
      · simp only
        have := extractsTo_self_append e.file (putRecord k v exp ++ [LFb])
        simpa using this
    · rw [if_neg hk] at h
      obtain ⟨off, h1, h2⟩ := hr.idx_some k' v' ex' h
      refine ⟨off, ?_, ?_⟩
      · simp only
        rw [alookup_ainsert_ne _ _ _ _ (fun he => hk he.symm)]
        exact h1
      · simp only
        have := extractsTo_append e.file (putRecord k v exp ++ [LFb]) _ _ _ h2
        simpa using this
  · intro p hp
    simp only at hp
    rcases List.mem_cons.mp (List.mem_of_mem_take hp) with rfl | hm
    · refine ⟨exp, ?_⟩
      rw [hlw k, if_pos rfl]
    · obtain ⟨hpl, hpk⟩ := mem_aerase _ _ _ hm
      obtain ⟨ex, hc⟩ := hr.cache p (hlmem p hpl hpk)
      refine ⟨ex, ?_⟩
      rw [hlw p.1, if_neg (fun he => hpk he.symm)]
      exact hc

/-- `delete` preserves the invariant, for any history whose `lastWrite`
drops the key. -/
theorem reach_after_delete (ops : List (Nat × Op)) (e : SlackbaseEngine)
    (now : Nat) (k : Str)
    (hw : wfOps ops) (hr : Reach ops e)
    (newOps : List (Nat × Op))
    (hlw : ∀ k', lastWrite newOps k' =
      if k = k' then none else lastWrite ops k') :
    Reach newOps (e.delete now k) := by
  obtain ⟨res, l, hh, mm, heq, hl, hdel⟩ := delete_shape e now k
  rw [hdel]
  have hlmem : ∀ p : Str × Str, p ∈ l → ¬ p.1 = k → p ∈ e.lru := by
    intro p hp hpk
    rcases hl with rfl | ⟨v0, _, rfl | rfl⟩
    · exact hp
    · rcases List.mem_cons.mp hp with rfl | hm
      · exact absurd rfl hpk
      · exact (mem_aerase _ _ _ hm).1
    · rcases List.mem_cons.mp (List.mem_of_mem_take hp) with rfl | hm
      · exact absurd rfl hpk
      · exact (mem_aerase _ _ _ hm).1
  refine ⟨?_, ?_, ?_, rfl⟩
  · intro k' h
    rw [hlw k'] at h
    by_cases hk : k = k'
    · subst hk
      simp only
      exact alookup_aerase_self e.index k
    · rw [if_neg hk] at h
      simp only
      rw [alookup_aerase_ne _ _ _ (fun he => hk he.symm)]
      exact hr.idx_none k' h
  · intro k' v' ex' h
    rw [hlw k'] at h
    by_cases hk : k = k'
    · rw [if_pos hk] at h
      exact absurd h (by simp)
    · rw [if_neg hk] at h
      obtain ⟨off, h1, h2⟩ := hr.idx_some k' v' ex' h
      refine ⟨off, ?_, ?_⟩
      · simp only
        rw [alookup_aerase_ne _ _ _ (fun he => hk he.symm)]
        exact h1
      · simp only
        have := extractsTo_append e.file (delRecord k ++ [LFb]) _ _ _ h2
        simpa using this
  · intro p hp
    simp only [lruPop] at hp
    obtain ⟨hpl, hpk⟩ := mem_aerase _ _ _ hp
    obtain ⟨ex, hc⟩ := hr.cache p (hlmem p hpl hpk)
    refine ⟨ex, ?_⟩
    rw [hlw p.1, if_neg (fun he => hpk he.symm)]
    exact hc

/-- Every run of well-formed operations from a fresh database satisfies the
invariant. -/
theorem reach_runOps (ops : List (Nat × Op)) (hw : wfOps ops) :
    Reach ops (runOps SlackbaseEngine.empty ops) := by
  induction ops using List.reverseRecOn with
  | nil => exact Reach.start
  | append_singleton ops p ih =>
    have hw' : wfOps ops := fun q hq => hw q (List.mem_append_left _ hq)
    have hrun : runOps SlackbaseEngine.empty (ops ++ [p]) =
        stepOp (runOps SlackbaseEngine.empty ops) p := by
      unfold runOps
      rw [List.foldl_append]
      rfl
    rw [hrun]
    obtain ⟨now, op⟩ := p
    rcases op with ⟨k, v⟩ | ⟨k, v, ttl⟩ | k
    · exact reach_after_put_internal ops _ now k v none hw' (ih hw') _
        (fun k' => by rw [lastWrite_append_one])
    · exact reach_after_put_internal ops _ now k v (some (now + ttl)) hw' (ih hw') _
        (fun k' => by rw [lastWrite_append_one])
    · exact reach_after_delete ops _ now k hw' (ih hw') _
        (fun k' => by rw [lastWrite_append_one])

/-! ## Claim C9 -/

/-- C9: `read_record_slice` returns `Ok(None)` whenever `offset + len`
exceeds the file size (the saturating addition cannot wrap), and therefore a
`get` through a stale or corrupt index entry whose extent lies past the end
of the log returns empty rather than failing. -/
theorem C9_oob_slice_reads_empty :
    (∀ (file : Str) (off len : Nat), file.length < off + len →
      read_record_slice file off len = none) ∧
    (∀ (e : SlackbaseEngine) (now : Nat) (key : Str) (off len : Nat),
      lruFind e.lru key = none → alookup e.index key = some (off, len) →
      e.file.length < off + len → (e.get now key).1 = none) := by
  have hs : ∀ (file : Str) (off len : Nat), file.length < off + len →
      read_record_slice file off len = none := by
    intro file off len h
    unfold read_record_slice
    rw [if_pos h]
  refine ⟨hs, ?_⟩
  intro e now key off len h1 h2 h3
  simp only [SlackbaseEngine.get, h1, h2, hs e.file off len h3]

/-- Witness for C9 at a concrete stale extent. -/
theorem C9_oob_slice_reads_empty_witness :
    read_record_slice [] 2 3 = none ∧
    ((SlackbaseEngine.openWith [] [([107], (2, 3))] []).get 0 [107]).1 = none := by
  exact ⟨C9_oob_slice_reads_empty.1 [] 2 3 (by decide),
    C9_oob_slice_reads_empty.2 (SlackbaseEngine.openWith [] [([107], (2, 3))] [])
      0 [107] 2 3 rfl rfl (by decide)⟩

/-! ## Claim C10 -/

/-- C10: `delete` on a key with no live index entry still succeeds: it
appends the `del` record to the WAL and the log, leaves the offset index and
LRU cache without the key, and rewrites the hint (always `index` in this
model).  There is no not-found error path: the modelled `delete` is total,
mirroring the source, whose only failure mode is I/O. -/
theorem C10_delete_missing_key (e : SlackbaseEngine) (now : Nat) (k : Str)
    (hbuf : e.writeBuffer = []) (hmiss : alookup e.index k = none) :
    (e.delete now k).wal = e.wal ++ [delRecord k] ∧
    (e.delete now k).file = e.file ++ delRecord k ++ [LFb] ∧
    alookup (e.delete now k).index k = none ∧
    lruFind (e.delete now k).lru k = none := by
  obtain ⟨res, l, hh, mm, heq, hl, hdel⟩ := delete_shape e now k
  rw [hdel]
  exact ⟨by simp [hbuf], rfl, alookup_aerase_self _ _, alookup_aerase_self _ _⟩

/-- Witness for C10: deleting a never-written key from a fresh database. -/
theorem C10_delete_missing_key_witness :
    (SlackbaseEngine.empty.delete 0 [107]).wal = [] ++ [delRecord [107]] ∧
    (SlackbaseEngine.empty.delete 0 [107]).file = [] ++ delRecord [107] ++ [LFb] ∧
    alookup (SlackbaseEngine.empty.delete 0 [107]).index [107] = none ∧
    lruFind (SlackbaseEngine.empty.delete 0 [107]).lru [107] = none :=
  C10_delete_missing_key SlackbaseEngine.empty 0 [107] rfl rfl

/-! ## Claim C3 (code bug) -/

/-- C3 fails on the code: `build_offset_index` parses each log line as
`key\tput\t…`, but the engine appends records as `put\tkey\t…`
(`put_internal`), so rebuilding the index from a log produced by the engine
yields the empty map instead of mapping each live key to its latest record.
Here, after `put a 1`, the in-memory index maps `"a"` to extent `(0, 12)`,
while a rebuild of the same log returns nothing — contradicting both the
claim and the function's own documentation. -/
theorem C3_build_offset_index_drops_engine_records :
    build_offset_index (SlackbaseEngine.empty.put 0 [97] [49]).file 5 = [] ∧
    alookup (SlackbaseEngine.empty.put 0 [97] [49]).index [97] = some (0, 12) ∧
    (SlackbaseEngine.empty.put 0 [97] [49]).file =
      putTok ++ TABb :: [97] ++ TABb :: [77, 81, 61, 61] ++ [TABb, LFb] := by
  refine ⟨by rfl, by rfl, by rfl⟩

/-! ## Claim C2 (code bug) -/

/-- C2 fails on the code: `compact_log` reads each line through
`read_records`, which splits at the *first* TAB, so a record
`put\ta\tMQ==\t` is seen as key `"put"` with value `"a\tMQ==\t"`; the inner
dispatch then matches neither `put` nor `del` and the record is dropped.
After `put a 1; compact()`, the rewritten log is empty and `get a` returns
empty instead of `"1"` — contradicting the claim, the spec and
`compact_log`'s own doc comment ("keeping only the latest valid record per
key"). -/
theorem C2_compact_loses_live_records :
    compact_log (SlackbaseEngine.empty.put 0 [97] [49]).file 5 = [] ∧
    (((SlackbaseEngine.empty.put 0 [97] [49]).compact 5).get 6 [97]).1 = none := by
  refine ⟨by rfl, by rfl⟩

/-! ## Claim C6 (corrected) -/

/-- Counterexample to C6 as stated: the I/O trace of an individual `put`
contains the log append but no `WAL::flush` event at all — `put_internal`
and `delete` only call the buffered `WAL::append`; the explicit flush
barrier is invoked solely by `batch`.  So "appends the record to the WAL
and flushes the WAL … before appending the record to the data log" is false
in its flush half. -/
theorem C6_counterexample :
    Ev.logAppend (putRecord [97] [98] none) ∈ putTrace [97] [98] none ∧
    Ev.walFlush ∉ putTrace [97] [98] none ∧
    Ev.walFlush ∉ deleteTrace [97] ∧
    Ev.walFlush ∈ batchTrace [BatchOp.put [97] [98]] := by
  refine ⟨by simp [putTrace], by decide, by decide, by simp [batchTrace]⟩

/-- C6 amended: every individual `put` and `delete` appends its record to
the WAL (a buffered `WAL::append`) before appending the record to the data
log; the explicit WAL flush barrier is not invoked by individual
operations — only `batch` flushes the WAL. -/
theorem C6_wal_append_precedes_log (k v : Str) (ex : Option Nat) :
    walAppendBeforeLog (putTrace k v ex) ∧ walAppendBeforeLog (deleteTrace k) := by
  constructor
  · intro i r h
    rcases i with _ | _ | _ | _ | i
    · exact absurd h (by simp [putTrace])
    · exact absurd h (by simp [putTrace])
    · refine ⟨1, by omega, ?_⟩
      have hr : r = putRecord k v ex := by
        simpa [putTrace] using h.symm
      simp [putTrace, hr]
    · exact absurd h (by simp [putTrace])
    · exact absurd h (by simp [putTrace])
  · intro i r h
    rcases i with _ | _ | _ | _ | i
    · exact absurd h (by simp [deleteTrace])
    · refine ⟨0, by omega, ?_⟩
      have hr : r = delRecord k := by
        simpa [deleteTrace] using h.symm
      simp [deleteTrace, hr]
    · exact absurd h (by simp [deleteTrace])
    · exact absurd h (by simp [deleteTrace])
    · exact absurd h (by simp [deleteTrace])

/-- Witness for C6 amended at a concrete key and value. -/
theorem C6_wal_append_precedes_log_witness :
    walAppendBeforeLog (putTrace [97] [98] none) ∧
    walAppendBeforeLog (deleteTrace [97]) :=
  C6_wal_append_precedes_log [97] [98] none

/-! ## Claim C5 -/

mutual

/-- Specification-side reading of §4.3: the mutation lines enclosed in
matched `BEGIN`/`END` pairs, in order.  A `BEGIN` opens a batch (discarding
any unclosed one), the matching `END` commits the lines collected since. -/
def committedOps : List Str → List Str
  | [] => []
  | l :: ls => if l = beginTok then inBatch ls [] else committedOps ls

/-- Lines collected inside an open batch (`acc` is reversed). -/
def inBatch : List Str → List Str → List Str
  | [], _ => []
  | l :: ls, acc =>
    if l = beginTok then inBatch ls []
    else if l = endTok then acc.reverse ++ committedOps ls
    else inBatch ls (l :: acc)

end

/-- The recovery state machine computes exactly the fold of `applyWalOp`
over the committed mutations. -/
theorem recoverGo_spec (now : Nat) (ls : List Str) :
    (∀ (e : SlackbaseEngine) (b : List Str), recoverGo now e false b ls =
      (committedOps ls).foldl (applyWalOp now) e) ∧
    (∀ (e : SlackbaseEngine) (acc : List Str), recoverGo now e true acc ls =
      (inBatch ls acc.reverse).foldl (applyWalOp now) e) := by
  induction ls with
  | nil =>
    constructor
    · intro e b
      rfl
    · intro e acc
      rfl
  | cons l ls ih =>
    constructor
    · intro e b
      simp only [recoverGo, committedOps]
      by_cases hb : l = beginTok
      · rw [if_pos hb, if_pos hb, ih.2 e []]
        rfl
      · rw [if_neg hb, if_neg hb, if_neg (by simp), if_neg (by simp)]
        exact ih.1 e b
    · intro e acc
      simp only [recoverGo, inBatch]
      by_cases hb : l = beginTok
      · rw [if_pos hb, if_pos hb, ih.2 e []]
        rfl
      · rw [if_neg hb, if_neg hb]
        by_cases he : l = endTok
        · have hc1 : l = endTok ∧ True := ⟨he, trivial⟩
          rw [if_pos hc1, if_pos he, ih.1 _ [], List.foldl_append, List.reverse_reverse]
        · have hc1 : ¬ (l = endTok ∧ True) := fun hc => he hc.1
          rw [if_neg hc1, if_neg he, if_pos trivial]
          rw [ih.2 e (acc ++ [l]), List.reverse_append]
          rfl

/-- A batch left open never commits anything. -/
theorem inBatch_no_end (ls : List Str) (acc : List Str) (h : endTok ∉ ls) :
    inBatch ls acc = [] := by
  induction ls generalizing acc with
  | nil => rfl
  | cons l ls ih =>
    simp only [List.mem_cons, not_or] at h
    simp only [inBatch]
    by_cases hb : l = beginTok
    · rw [if_pos hb]
      exact ih [] h.2
    · rw [if_neg hb, if_neg (fun he => h.1 he.symm)]
      exact ih (l :: acc) h.2

/-- Appending a dangling `BEGIN` (no later `END`) changes nothing. -/
theorem committedOps_dangling (pre post : List Str) (h : endTok ∉ post) :
    committedOps (pre ++ beginTok :: post) = committedOps pre ∧
    ∀ acc, inBatch (pre ++ beginTok :: post) acc = inBatch pre acc := by
  induction pre with
  | nil =>
    constructor
    · simp only [List.nil_append, committedOps, if_pos rfl]
      exact inBatch_no_end post [] h
    · intro acc
      simp only [List.nil_append, inBatch, if_pos rfl]
      exact inBatch_no_end post [] h
  | cons l pre ih =>
    constructor
    · simp only [List.cons_append, committedOps]
      by_cases hb : l = beginTok
      · rw [if_pos hb, if_pos hb]
        exact ih.2 []
      · rw [if_neg hb, if_neg hb]
        exact ih.1
    · intro acc
      simp only [List.cons_append, inBatch]
      by_cases hb : l = beginTok
      · rw [if_pos hb, if_pos hb]
        exact ih.2 []
      · rw [if_neg hb, if_neg hb]
        by_cases he : l = endTok
        · rw [if_pos he, if_pos he]
          rw [show pre.append (beginTok :: post) = pre ++ beginTok :: post from rfl, ih.1]
        · rw [if_neg he, if_neg he]
          exact ih.2 (l :: acc)

/-- Lines outside any `BEGIN`/`END` pair are ignored. -/
theorem committedOps_no_begin (entries : List Str) (h : beginTok ∉ entries) :
    committedOps entries = [] := by
  induction entries with
  | nil => rfl
  | cons l ls ih =>
    simp only [List.mem_cons, not_or] at h
    simp only [committedOps]
    rw [if_neg (fun hb => h.1 hb.symm), ih h.2]

/-- C5: WAL recovery applies exactly the mutations enclosed in matched
`BEGIN`/`END` pairs, in order, through `put`/`delete` (`applyWalOp`); a
dangling `BEGIN` without a following `END` contributes nothing, and lines
outside any `BEGIN`/`END` pair are ignored — hence a batch whose `END`
reached the WAL is replayed in full on open and a batch without its `END`
not at all. -/
theorem C5_recovery_applies_committed_batches :
    (∀ (now : Nat) (e : SlackbaseEngine) (entries : List Str),
      recover_from_wal now e entries =
        (committedOps entries).foldl (applyWalOp now) e) ∧
    (∀ pre post, endTok ∉ post →
      committedOps (pre ++ beginTok :: post) = committedOps pre) ∧
    (∀ entries, beginTok ∉ entries → committedOps entries = []) := by
  refine ⟨?_, ?_, committedOps_no_begin⟩
  · intro now e entries
    exact (recoverGo_spec now entries).1 e []
  · intro pre post h
    exact (committedOps_dangling pre post h).1

/-- Witness for C5: a WAL holding one individual write, one committed batch
and one dangling batch replays exactly the committed batch. -/
theorem C5_recovery_applies_committed_batches_witness :
    recover_from_wal 0 SlackbaseEngine.empty
        [delRecord [99], beginTok, putRecord [120] [49] none, endTok, beginTok,
         delRecord [120]] =
      (committedOps
        [delRecord [99], beginTok, putRecord [120] [49] none, endTok, beginTok,
         delRecord [120]]).foldl (applyWalOp 0) SlackbaseEngine.empty ∧
    committedOps ([delRecord [99], beginTok, putRecord [120] [49] none, endTok] ++
        beginTok :: [delRecord [120]]) =
      committedOps [delRecord [99], beginTok, putRecord [120] [49] none, endTok] ∧
    committedOps [putRecord [120] [49] none, delRecord [120]] = [] := by
  refine ⟨C5_recovery_applies_committed_batches.1 0 SlackbaseEngine.empty _,
    C5_recovery_applies_committed_batches.2.1 _ _ (by decide),
    C5_recovery_applies_committed_batches.2.2 _ (by decide)⟩

/-! ## Claim C8 -/

/-- Specification-side reading of §4.8 for `list_range`: a negative index
is interpreted from the tail (as `len + index`), both endpoints are clamped
to valid bounds (`start` up to `0`, `end` into `[0, len)`), the result is
empty when the clamped range is empty, and otherwise it is the selected
elements in list order — as the code returns them, JSON-serialized. -/
def rangeSpec (xs : List Json) (start finish : Int) : List Str :=
  let len : Int := xs.length
  let s := max (if start < 0 then len + start else start) 0
  let e := min (max (if finish < 0 then len + finish else finish) 0) (len - 1)
  if s > e then []
  else ((xs.drop s.toNat).take (e - s + 1).toNat).map jser

/-- The engine's `list_range` refines `rangeSpec` whenever the stored value
parses as a JSON array. -/
theorem list_range_refines_rangeSpec (e : SlackbaseEngine) (now : Nat) (key : Str)
    (start finish : Int) (xs : List Json)
    (hp : (e.get now key).1.bind parseJson = some (.arr xs)) :
    (e.list_range now key start finish).1 = some (rangeSpec xs start finish) := by
  unfold SlackbaseEngine.list_range
  simp only [hp]
  unfold rangeSpec
  simp only
  set len : Int := (xs.length : Int) with hlen
  have hlen0 : 0 ≤ len := by positivity
  set s0 : Int := if start < 0 then len + start else start with hs0
  set e0 : Int := if finish < 0 then len + finish else finish with he0
  set s : Int := max s0 0 with hs
  set ee : Int := min (max e0 0) (len - 1) with hee
  have hs_nonneg : 0 ≤ s := le_max_right _ _
  have hee_lt : ee ≤ len - 1 := min_le_right _ _
  by_cases hg : min (max s0 0) len > ee ∨ len = 0
  · rw [if_pos hg]
    have hse : s > ee := by
      rcases hg with hg | hg
      · rcases le_or_lt s len with hc | hc
        · have : min (max s0 0) len = s := min_eq_left hc
          omega
        · omega
      · omega
    rw [if_pos hse]
  · rw [if_neg hg]
    push_neg at hg
    have hlenpos : 0 < len := by
      rcases lt_or_eq_of_le hlen0 with h | h
      · exact h
      · exact absurd h.symm hg.2
    have hsle : s ≤ len := by
      by_contra hc
      push_neg at hc
      have : min (max s0 0) len = len := min_eq_right (le_of_lt hc)
      omega
    have hmin : min (max s0 0) len = s := min_eq_left hsle
    have hse : ¬ s > ee := by omega
    rw [if_neg hse]
    have htk : ee.toNat - s.toNat + 1 = (ee - s + 1).toNat := by omega
    rw [hmin, htk]

/-- The concrete C8 scenario engine:
`list_rpush L a; list_rpush L b; list_lpush L c` from a fresh database. -/
def c8Run : SlackbaseEngine :=
  ((SlackbaseEngine.empty.list_rpush 0 [76] [97]).list_rpush 0 [76] [98]).list_lpush
    0 [76] [99]

/-- Counterexample to C8 as stated: the popped and ranged elements are
returned through `Value::to_string()`, which JSON-serializes them, so the
scenario yields the quoted strings `"\"c\"", "\"a\"", "\"b\""` — not
`c`, `a`, `b` as the claim asserts. -/
theorem C8_counterexample :
    (c8Run.list_range 0 [76] 0 (-1)).1 =
      some [[34, 99, 34], [34, 97, 34], [34, 98, 34]] ∧
    (c8Run.list_range 0 [76] 0 (-1)).1 ≠ some [[99], [97], [98]] ∧
    (c8Run.list_lpop 0 [76]).1 = some [34, 99, 34] ∧
    (c8Run.list_lpop 0 [76]).1 ≠ some [99] := by
  refine ⟨by rfl, by decide, by rfl, by decide⟩

/-- C8 amended: `list_range(K, s, e)` interprets a negative `s` or `e` from
the tail (as `len + index`), clamps the range to valid bounds, returns an
empty sequence when the resulting range is empty, and otherwise returns the
selected elements in list order *JSON-serialized* (a JSON string keeps its
quotes); concretely, after `list_rpush K a; list_rpush K b; list_lpush K c`,
`list_range(K, 0, -1)` yields the serialized forms of `c`, `a`, `b`,
`list_lpop(K)` the serialized form of `c`, and `list_len(K) = 2`. -/
theorem C8_list_range_tail_semantics :
    (∀ (e : SlackbaseEngine) (now : Nat) (key : Str) (start finish : Int)
      (xs : List Json), (e.get now key).1.bind parseJson = some (.arr xs) →
      (e.list_range now key start finish).1 = some (rangeSpec xs start finish)) ∧
    (c8Run.list_range 0 [76] 0 (-1)).1 =
      some [jser (.str [99]), jser (.str [97]), jser (.str [98])] ∧
    (c8Run.list_lpop 0 [76]).1 = some (jser (.str [99])) ∧
    ((c8Run.list_lpop 0 [76]).2.list_len 0 [76]).1 = 2 := by
  exact ⟨list_range_refines_rangeSpec, by rfl, by rfl, by rfl⟩

/-- Witness for C8 amended: the refinement applied to the scenario's state,
whose stored value parses as the array of the three pushed strings. -/
theorem C8_list_range_tail_semantics_witness :
    (c8Run.list_range 0 [76] 0 (-1)).1 =
      some (rangeSpec [.str [99], .str [97], .str [98]] 0 (-1)) :=
  C8_list_range_tail_semantics.1 c8Run 0 [76] 0 (-1)
    [.str [99], .str [97], .str [98]] (by rfl)

/-! ## Claim C1 -/

/-- The key an operation addresses. -/
def Op.keyOf : Op → Str
  | .put k _ => k
  | .putex k _ _ => k
  | .del k => k

theorem lastWrite_skip (pre ops : List (Nat × Op)) (k : Str)
    (h : ∀ p ∈ ops, Op.keyOf p.2 ≠ k) :
    lastWrite (pre ++ ops) k = lastWrite pre k := by
  induction ops using List.reverseRecOn with
  | nil => simp
  | append_singleton ops p ih =>
    have hp : Op.keyOf p.2 ≠ k := h p (List.mem_append_right _ (by simp))
    rw [← List.append_assoc, lastWrite_append_one]
    rcases hop : p.2 with ⟨k', v'⟩ | ⟨k', v', ttl⟩ | k'
    all_goals rw [hop] at hp
    all_goals simp only [Op.keyOf] at hp
    all_goals simp only [if_neg hp]
    all_goals exact ih (fun q hq => h q (List.mem_append_left _ hq))

theorem take_append_take {α : Type} (A B : List α) (n : Nat) :
    (A ++ B.take n).take n = (A ++ B).take n := by
  rw [List.take_append_eq_append_take, List.take_append_eq_append_take, List.take_take]
  congr 1
  · congr 1
    omega

/-- Running first-time `put`s of pairwise distinct fresh keys: the cache
becomes the most-recent `lruCap` of the new insertions stacked over the old
cache, and foreign index entries are untouched. -/
theorem run_fresh_puts (ks : List Str) (v : Str) (e : SlackbaseEngine)
    (hnodup : ks.Nodup) (hlen : e.lru.length ≤ lruCap)
    (hfresh : ∀ ki ∈ ks, alookup e.index ki = none ∧ lruFind e.lru ki = none) :
    (runOps e (ks.map (fun ki => (0, Op.put ki v)))).lru =
      ((ks.reverse.map (fun ki => (ki, v))) ++ e.lru).take lruCap ∧
    (∀ k', k' ∉ ks →
      alookup (runOps e (ks.map (fun ki => (0, Op.put ki v)))).index k' =
        alookup e.index k') := by
  induction ks generalizing e with
  | nil =>
    constructor
    · show e.lru = _
      simp only [List.reverse_nil, List.map_nil, List.nil_append]
      exact (List.take_of_length_le hlen).symm
    · intro k' _
      rfl
  | cons ki ks ih =>
    obtain ⟨hfi, hfl⟩ := hfresh ki (by simp)
    obtain ⟨res, l, hh, mm, heq, hl, hput⟩ := put_internal_shape e 0 ki v none
    have hmiss := SlackbaseEngine.get_miss_noindex
      ({ e with writeOps := e.writeOps + 1 }) 0 ki hfl hfi
    have hle : l = e.lru := by
      have h0 := heq.symm.trans hmiss
      have h2 := congrArg (fun q => q.2.lru) h0
      simpa using h2
    subst hle
    have haer : aerase e.lru ki = e.lru := aerase_eq_self_of_alookup_none _ _ hfl
    have hlru_e1 : (e.put_internal 0 ki v none).lru = ((ki, v) :: e.lru).take lruCap := by
      rw [hput]
      show lruPut e.lru ki v = _
      rw [lruPut, haer]
    have hidx_e1 : (e.put_internal 0 ki v none).index =
        ainsert e.index ki (e.file.length, (putRecord ki v none).length + 1) := by
      rw [hput]
    have hnd : ks.Nodup := hnodup.of_cons
    have hki : ki ∉ ks := (List.nodup_cons.mp hnodup).1
    have hfresh1 : ∀ kj ∈ ks,
        alookup (e.put_internal 0 ki v none).index kj = none ∧
        lruFind (e.put_internal 0 ki v none).lru kj = none := by
      intro kj hkj
      have hne : kj ≠ ki := fun he => hki (he ▸ hkj)
      constructor
      · rw [hidx_e1, alookup_ainsert_ne _ _ _ _ hne]
        exact (hfresh kj (by simp [hkj])).1
      · rw [lruFind, hlru_e1]
        apply alookup_take_none
        rw [alookup_cons, if_neg (by simpa using fun he => hne he.symm)]
        exact (hfresh kj (by simp [hkj])).2
    have hlen1 : (e.put_internal 0 ki v none).lru.length ≤ lruCap := by
      rw [hlru_e1]
      simp [List.length_take]
    have hstep : runOps e ((ki :: ks).map (fun kj => (0, Op.put kj v))) =
        runOps (e.put_internal 0 ki v none) (ks.map (fun kj => (0, Op.put kj v))) := by
      simp only [List.map_cons]
      rfl
    rw [hstep]
    have hmain := ih (e.put_internal 0 ki v none) hnd hlen1 hfresh1
    constructor
    · rw [hmain.1, hlru_e1, take_append_take]
      simp
    · intro k' hk'
      simp only [List.mem_cons, not_or] at hk'
      rw [hmain.2 k' hk'.2, hidx_e1]
      exact alookup_ainsert_ne _ _ _ _ hk'.1

/-- C1 amended: for every sequence of `put`/`delete` operations through one
open engine starting from a fresh database (keys TAB/LF-free, §3), a
subsequent `get(K)` returns the value of the last `put(K,·)` not followed
by a `delete(K)` whenever that value is nonempty; an *empty* last-put value
reads back as either the empty value or as missing (once the record falls
out of the LRU cache, `trim_end` erases the empty base64 field and the
record no longer parses); and `get(K)` returns empty when the last
operation on `K` was `delete(K)` or `K` was never written. -/
theorem C1_last_write_wins (ops : List (Nat × Op)) (hw : wfOps ops)
    (now : Nat) (k : Str) :
    (lastWrite ops k = none →
      ((runOps SlackbaseEngine.empty ops).get now k).1 = none) ∧
    (∀ v, lastWrite ops k = some (v, none) → v ≠ [] →
      ((runOps SlackbaseEngine.empty ops).get now k).1 = some v) ∧
    (lastWrite ops k = some ([], none) →
      ((runOps SlackbaseEngine.empty ops).get now k).1 = some [] ∨
      ((runOps SlackbaseEngine.empty ops).get now k).1 = none) := by
  have hr := reach_runOps ops hw
  have hg := get_reach ops (runOps SlackbaseEngine.empty ops) now k hw hr
  refine ⟨hg.2.1, hg.2.2.1, ?_⟩
  intro hlw
  rcases hres : ((runOps SlackbaseEngine.empty ops).get now k).1 with _ | v
  · exact Or.inr rfl
  · obtain ⟨ex, hl⟩ := hg.1 v hres
    rw [hlw] at hl
    have : v = [] := by
      have := Option.some_inj.mp hl
      exact (Prod.mk.injEq .. ▸ this).1.symm
    exact Or.inl (this ▸ rfl)

/-- Witness for C1 amended: `put a 1; put b 2; del b` — `get a` yields
`"1"`, `get b` and `get c` yield empty. -/
theorem C1_last_write_wins_witness :
    (lastWrite [(0, Op.put [97] [49]), (1, Op.put [98] [50]), (2, Op.del [98])]
      [98] = none →
      ((runOps SlackbaseEngine.empty
        [(0, Op.put [97] [49]), (1, Op.put [98] [50]), (2, Op.del [98])]).get 3
        [98]).1 = none) ∧
    (∀ v, lastWrite [(0, Op.put [97] [49]), (1, Op.put [98] [50]), (2, Op.del [98])]
      [98] = some (v, none) → v ≠ [] →
      ((runOps SlackbaseEngine.empty
        [(0, Op.put [97] [49]), (1, Op.put [98] [50]), (2, Op.del [98])]).get 3
        [98]).1 = some v) ∧
    (lastWrite [(0, Op.put [97] [49]), (1, Op.put [98] [50]), (2, Op.del [98])]
      [98] = some ([], none) →
      ((runOps SlackbaseEngine.empty
        [(0, Op.put [97] [49]), (1, Op.put [98] [50]), (2, Op.del [98])]).get 3
        [98]).1 = some [] ∨
      ((runOps SlackbaseEngine.empty
        [(0, Op.put [97] [49]), (1, Op.put [98] [50]), (2, Op.del [98])]).get 3
        [98]).1 = none) :=
  C1_last_write_wins
    [(0, Op.put [97] [49]), (1, Op.put [98] [50]), (2, Op.del [98])]
    (by decide) 3 [98]

/-- The key of the C1 counterexample. -/
def c1Key : Str := [107]

/-- 1024 pairwise distinct two-byte filler keys (printable, no TAB/LF). -/
def c1Fillers : List Str := (List.range 1024).map (fun i => [32 + i / 32, 32 + i % 32])

/-- `put k ""` followed by 1024 first-time puts of distinct other keys:
enough to evict `k` from the LRU cache (capacity 1024). -/
def c1Ops : List (Nat × Op) :=
  (0, Op.put c1Key []) :: c1Fillers.map (fun fk => (0, Op.put fk [120]))

theorem c1Fillers_ne_key : ∀ fk ∈ c1Fillers, fk ≠ c1Key := by
  intro fk hm
  obtain ⟨i, hi, rfl⟩ := List.mem_map.mp hm
  intro he
  simp [c1Key] at he

theorem c1Fillers_nodup : c1Fillers.Nodup := by
  apply List.Nodup.map_on _ (List.nodup_range 1024)
  intro i hi j hj he
  rw [List.mem_range] at hi hj
  have h1 : 32 + i / 32 = 32 + j / 32 ∧ [32 + i % 32] = [32 + j % 32] := by
    simpa using he
  have h2 : i % 32 = j % 32 := by
    have := h1.2
    simpa using this
  omega

theorem c1_wf : wfOps c1Ops := by
  intro p hp
  rcases List.mem_cons.mp hp with rfl | hm
  · show Op.wf (Op.put c1Key [])
    decide
  · obtain ⟨fk, hfk, rfl⟩ := List.mem_map.mp hm
    obtain ⟨i, hi, rfl⟩ := List.mem_map.mp hfk
    have hi' : i < 1024 := List.mem_range.mp hi
    show Op.wf (Op.put [32 + i / 32, 32 + i % 32] [120])
    refine ⟨⟨?_, ?_, ?_⟩, by decide⟩
    · intro b hb
      rcases List.mem_cons.mp hb with rfl | hb
      · omega
      · rcases List.mem_cons.mp hb with rfl | hb
        · omega
        · exact absurd hb (by simp)
    · intro hb
      unfold TABb at hb
      rcases List.mem_cons.mp hb with h9 | hb
      · omega
      · rcases List.mem_cons.mp hb with h9 | hb
        · omega
        · exact absurd hb (by simp)
    · intro hb
      unfold LFb at hb
      rcases List.mem_cons.mp hb with h9 | hb
      · omega
      · rcases List.mem_cons.mp hb with h9 | hb
        · omega
        · exact absurd hb (by simp)

theorem c1_lastWrite : lastWrite c1Ops c1Key = some ([], none) := by
  have hsplit : c1Ops = [(0, Op.put c1Key [])] ++
      c1Fillers.map (fun fk => (0, Op.put fk [120])) := rfl
  rw [hsplit, lastWrite_skip]
  · rfl
  · intro p hp
    obtain ⟨fk, hfk, rfl⟩ := List.mem_map.mp hp
    simpa [Op.keyOf] using c1Fillers_ne_key fk hfk

/-- The engine after the first `put k ""` of the counterexample run. -/
def c1E1 : SlackbaseEngine := stepOp SlackbaseEngine.empty (0, Op.put c1Key [])

theorem c1_evicted :
    lruFind (runOps SlackbaseEngine.empty c1Ops).lru c1Key = none := by
  have he1idx : c1E1.index = [(c1Key, (0, 8))] := rfl
  have he1lru : c1E1.lru = [(c1Key, [])] := rfl
  have he1len : c1E1.lru.length ≤ lruCap := by
    rw [he1lru]
    decide
  have hfresh : ∀ fk ∈ c1Fillers,
      alookup c1E1.index fk = none ∧ lruFind c1E1.lru fk = none := by
    intro fk hm
    have hne := c1Fillers_ne_key fk hm
    constructor
    · rw [he1idx, alookup_cons, if_neg (by simpa using fun he => hne he.symm)]
      rfl
    · rw [lruFind, he1lru, alookup_cons, if_neg (by simpa using fun he => hne he.symm)]
      rfl
  have hrun : runOps SlackbaseEngine.empty c1Ops =
      runOps c1E1 (c1Fillers.map (fun fk => (0, Op.put fk [120]))) := by
    unfold runOps c1Ops c1E1
    rw [List.foldl_cons]
  have hfp := run_fresh_puts c1Fillers [120] c1E1 c1Fillers_nodup he1len hfresh
  rw [hrun, lruFind, hfp.1]
  have hlenA : (c1Fillers.reverse.map (fun ki => (ki, ([120] : Str)))).length = lruCap := by
    simp [c1Fillers, lruCap]
  rw [← hlenA, List.take_left]
  rw [alookup_none_iff]
  intro p hp
  obtain ⟨fk, hfk, rfl⟩ := List.mem_map.mp hp
  exact c1Fillers_ne_key fk (List.mem_reverse.mp hfk)

/-- Counterexample to C1 as stated: after `put k ""` and 1024 puts of other
distinct keys through the same engine, the last operation on `k` is a `put`
of the empty string (never deleted), yet `get k` returns empty — the record
was evicted from the LRU cache, and the disk path cannot re-read it because
`trim_end` erases the empty base64 field together with its separators,
leaving fewer than three record fields. -/
theorem C1_counterexample :
    lastWrite c1Ops c1Key = some ([], none) ∧
    ((runOps SlackbaseEngine.empty c1Ops).get 5 c1Key).1 = none := by
  refine ⟨c1_lastWrite, ?_⟩
  have hr := reach_runOps c1Ops c1_wf
  obtain ⟨off, hidx, hext⟩ := hr.idx_some c1Key [] none c1_lastWrite
  rw [SlackbaseEngine.get_disk_empty _ 5 c1Key off c1_evicted hidx hext (by decide)]

/-! ## Claim C4 -/

/-- The C4 scenario: `putex k v 10` at time 0 (absolute expiry 10). -/
def c4Run : SlackbaseEngine :=
  runOps SlackbaseEngine.empty [(0, Op.putex [107] [118] 10)]

/-- The same store reopened (fresh LRU cache, index from the hint,
secondary index from its sidecar). -/
def c4Reopened : SlackbaseEngine :=
  SlackbaseEngine.openWith c4Run.file c4Run.index c4Run.secIndex

/-- Counterexample to C4 as stated: with a record whose expiry is 10,
`get` at `now = 10` (`expiry ≤ now`) still returns the value — the code
expires only when `now > expiry`; and `get` at `now = 100` through the
still-warm cache also returns the value, because the LRU hit path never
checks expiry, so the cache does retain expired keys.  (`get` at `now = 11`
on the reopened store does return empty, locating the failure at the
boundary and in the cache.) -/
theorem C4_counterexample :
    (c4Reopened.get 10 [107]).1 = some [118] ∧
    (c4Run.get 100 [107]).1 = some [118] ∧
    (c4Reopened.get 11 [107]).1 = none := by
  refine ⟨by decide, by rfl, by decide⟩

/-- C4 amended: a stored record with `expiry < now` (strictly) is treated
as non-existent by the index/disk read path — at `expiry = now` the value
is still returned; the LRU cache is not expiry-checked, so `get` may return
a cached value for an expired key and the cache may retain expired keys;
but the cache never contains a deleted or never-written key: every cache
entry holds the latest written value of its key. -/
theorem C4_expiry_and_cache :
    (∀ (ops : List (Nat × Op)) (k v : Str) (ex now : Nat), wfOps ops →
      lastWrite ops k = some (v, some ex) →
      (now > ex →
        ((SlackbaseEngine.openWith (runOps SlackbaseEngine.empty ops).file
          (runOps SlackbaseEngine.empty ops).index
          (runOps SlackbaseEngine.empty ops).secIndex).get now k).1 = none) ∧
      (¬ now > ex →
        ((SlackbaseEngine.openWith (runOps SlackbaseEngine.empty ops).file
          (runOps SlackbaseEngine.empty ops).index
          (runOps SlackbaseEngine.empty ops).secIndex).get now k).1 = some v)) ∧
    (∀ (ops : List (Nat × Op)), wfOps ops →
      ∀ p ∈ (runOps SlackbaseEngine.empty ops).lru,
        ∃ ex, lastWrite ops p.1 = some (p.2, ex)) := by
  constructor
  · intro ops k v ex now hw hlw
    have hr := reach_runOps ops hw
    have hro : Reach ops (SlackbaseEngine.openWith
        (runOps SlackbaseEngine.empty ops).file
        (runOps SlackbaseEngine.empty ops).index
        (runOps SlackbaseEngine.empty ops).secIndex) :=
      ⟨hr.idx_none, hr.idx_some, fun p hp => absurd hp (by simp [SlackbaseEngine.openWith]), rfl⟩
    obtain ⟨off, hidx, hext⟩ := hro.idx_some k v (some ex) hlw
    obtain ⟨hk', hv'⟩ := lastWrite_wf ops k v (some ex) hw hlw
    constructor
    · intro hexp
      rw [SlackbaseEngine.get_disk_expired _ now k v off ex (by rfl) hidx hext hk'.2.1 hexp]
    · intro hexp
      rw [SlackbaseEngine.get_disk_exp_live _ now k v off ex (by rfl) hidx hext hk'.2.1 hv' hexp]
  · intro ops hw p hp
    exact (reach_runOps ops hw).cache p hp

/-- Witness for C4 amended at the concrete scenario. -/
theorem C4_expiry_and_cache_witness :
    (c4Reopened.get 11 [107]).1 = none ∧
    (c4Reopened.get 10 [107]).1 = some [118] ∧
    (∃ ex, lastWrite [(0, Op.putex [107] [118] 10)] [107] = some ([118], ex)) := by
  refine ⟨(C4_expiry_and_cache.1 [(0, Op.putex [107] [118] 10)] [107] [118] 10 11
      (by decide) (by rfl)).1 (by decide),
    (C4_expiry_and_cache.1 [(0, Op.putex [107] [118] 10)] [107] [118] 10 10
      (by decide) (by rfl)).2 (by decide),
    C4_expiry_and_cache.2 [(0, Op.putex [107] [118] 10)] (by decide)
      ([107], [118]) (by decide)⟩

/-! ## Claim C7 -/

theorem secFind_def (idx : SecIdx) (f v : Str) :
    secFind idx f v = (alookup ((alookup idx f).getD []) v).getD [] := by
  unfold secFind
  rcases hf : alookup idx f with _ | vm
  · rfl
  · rcases hv : alookup vm v with _ | ks
    · simp only [Option.getD_some, hv, Option.getD_none]
    · simp only [Option.getD_some, hv]

/-- Cell-level effect of `removeKeyPair`: only the `(f, sv)` cell changes,
by dropping `k`; the pruning of empty sets and maps is unobservable through
`find`. -/
theorem secFind_removeKeyPair (idx : SecIdx) (k f sv f' v' : Str) :
    secFind (removeKeyPair idx k f sv) f' v' =
      if f' = f ∧ v' = sv then (secFind idx f sv).filter (fun x => ¬ x = k)
      else secFind idx f' v' := by
  unfold removeKeyPair
  rcases hf : alookup idx f with _ | vm
  · split_ifs with h
    · obtain ⟨rfl, rfl⟩ := h
      rw [secFind_def, hf]
      rfl
    · rfl
  · rcases hv : alookup vm sv with _ | set
    · simp only [hv]
      by_cases hvm : vm = []
      · rw [if_pos hvm]
        split_ifs with h
        · obtain ⟨rfl, rfl⟩ := h
          rw [secFind_def, alookup_aerase_self, secFind_def, hf, Option.getD_some, hv]
          rfl
        · by_cases hff : f' = f
          · subst hff
            rw [secFind_def, alookup_aerase_self, secFind_def, hf, Option.getD_some, hvm]
            rfl
          · rw [secFind_def, alookup_aerase_ne _ _ _ hff, ← secFind_def]
      · rw [if_neg hvm]
        split_ifs with h
        · obtain ⟨rfl, rfl⟩ := h
          rw [secFind_def, alookup_ainsert_self, secFind_def, hf, Option.getD_some, hv]
          rfl
        · by_cases hff : f' = f
          · subst hff
            rw [secFind_def, alookup_ainsert_self, secFind_def, hf]
          · rw [secFind_def, alookup_ainsert_ne _ _ _ _ hff, ← secFind_def]
    · simp only [hv]
      by_cases hs : set.filter (fun x => ¬ x = k) = []
      · rw [if_pos hs]
        by_cases hvm : aerase vm sv = []
        · rw [if_pos hvm]
          split_ifs with h
          · obtain ⟨rfl, rfl⟩ := h
            rw [secFind_def, alookup_aerase_self, secFind_def, hf, Option.getD_some, hv,
              Option.getD_some, hs]
            rfl
          · by_cases hff : f' = f
            · subst hff
              have hv' : ¬ v' = sv := fun hc => h ⟨rfl, hc⟩
              rw [secFind_def, alookup_aerase_self, secFind_def, hf, Option.getD_some]
              have : alookup vm v' = alookup (aerase vm sv) v' :=
                (alookup_aerase_ne vm sv v' hv').symm
              rw [this, hvm]
              rfl
            · rw [secFind_def, alookup_aerase_ne _ _ _ hff, ← secFind_def]
        · rw [if_neg hvm]
          split_ifs with h
          · obtain ⟨rfl, rfl⟩ := h
            rw [secFind_def, alookup_ainsert_self, Option.getD_some, alookup_aerase_self,
              secFind_def, hf, Option.getD_some, hv, Option.getD_some, hs]
            rfl
          · by_cases hff : f' = f
            · subst hff
              have hv' : ¬ v' = sv := fun hc => h ⟨rfl, hc⟩
              rw [secFind_def, alookup_ainsert_self, Option.getD_some,
                alookup_aerase_ne _ _ _ hv', secFind_def, hf, Option.getD_some]
            · rw [secFind_def, alookup_ainsert_ne _ _ _ _ hff, ← secFind_def]
      · rw [if_neg hs]
        have hne : ¬ ainsert vm sv (set.filter (fun x => ¬ x = k)) = [] := by
          simp [ainsert]
        rw [if_neg hne]
        split_ifs with h
        · obtain ⟨rfl, rfl⟩ := h
          rw [secFind_def, alookup_ainsert_self, Option.getD_some, alookup_ainsert_self,
            Option.getD_some, secFind_def, hf, Option.getD_some, hv]
          rfl
        · by_cases hff : f' = f
          · subst hff
            have hv' : ¬ v' = sv := fun hc => h ⟨rfl, hc⟩
            rw [secFind_def, alookup_ainsert_self, Option.getD_some,
              alookup_ainsert_ne _ _ _ _ hv', secFind_def, hf, Option.getD_some]
          · rw [secFind_def, alookup_ainsert_ne _ _ _ _ hff, ← secFind_def]

/-- Cell-level effect of `addKeyPair`: only the `(f, sv)` cell changes, by
adding `k` if absent. -/
theorem secFind_addKeyPair (idx : SecIdx) (k f sv f' v' : Str) :
    secFind (addKeyPair idx k f sv) f' v' =
      if f' = f ∧ v' = sv then
        (if k ∈ secFind idx f sv then secFind idx f sv else secFind idx f sv ++ [k])
      else secFind idx f' v' := by
  unfold addKeyPair
  have hset : (alookup ((alookup idx f).getD []) sv).getD [] = secFind idx f sv :=
    (secFind_def idx f sv).symm
  by_cases h : f' = f ∧ v' = sv
  · obtain ⟨rfl, rfl⟩ := h
    rw [if_pos ⟨rfl, rfl⟩, secFind_def, alookup_ainsert_self, Option.getD_some,
      alookup_ainsert_self, Option.getD_some, hset]
  · rw [if_neg h]
    by_cases hff : f' = f
    · subst hff
      have hv' : ¬ v' = sv := fun hc => h ⟨rfl, hc⟩
      rw [secFind_def, alookup_ainsert_self, Option.getD_some,
        alookup_ainsert_ne _ _ _ _ hv', ← secFind_def]
    · rw [secFind_def, alookup_ainsert_ne _ _ _ _ hff, ← secFind_def]

theorem mem_removeKeyPair (idx : SecIdx) (k f sv k' f' v' : Str) :
    k' ∈ secFind (removeKeyPair idx k f sv) f' v' ↔
      k' ∈ secFind idx f' v' ∧ ¬ (k' = k ∧ f' = f ∧ v' = sv) := by
  rw [secFind_removeKeyPair]
  split_ifs with h
  · obtain ⟨rfl, rfl⟩ := h
    constructor
    · intro hmf
      obtain ⟨hm, hk⟩ := List.mem_filter.mp hmf
      simp only [decide_not, Bool.not_eq_true', decide_eq_false_iff_not] at hk
      exact ⟨hm, fun hc => hk hc.1⟩
    · rintro ⟨hm, hk⟩
      refine List.mem_filter.mpr ⟨hm, ?_⟩
      simp only [decide_not, Bool.not_eq_true', decide_eq_false_iff_not]
      exact fun hc => hk ⟨hc, rfl, rfl⟩
  · constructor
    · intro hm
      exact ⟨hm, fun hc => h ⟨hc.2.1, hc.2.2⟩⟩
    · exact fun hc => hc.1

theorem mem_addKeyPair (idx : SecIdx) (k f sv k' f' v' : Str) :
    k' ∈ secFind (addKeyPair idx k f sv) f' v' ↔
      k' ∈ secFind idx f' v' ∨ (k' = k ∧ f' = f ∧ v' = sv) := by
  rw [secFind_addKeyPair]
  split_ifs with h hk
  · obtain ⟨rfl, rfl⟩ := h
    constructor
    · exact fun hm => Or.inl hm
    · rintro (hm | ⟨rfl, -, -⟩)
      · exact hm
      · exact hk
  · obtain ⟨rfl, rfl⟩ := h
    rw [List.mem_append, List.mem_singleton]
    constructor
    · rintro (hm | rfl)
      · exact Or.inl hm
      · exact Or.inr ⟨rfl, rfl, rfl⟩
    · rintro (hm | ⟨rfl, -, -⟩)
      · exact Or.inl hm
      · exact Or.inr rfl
  · constructor
    · exact fun hm => Or.inl hm
    · rintro (hm | ⟨rfl, hf', hv'⟩)
      · exact hm
      · exact absurd ⟨hf', hv'⟩ h

theorem mem_removeFold (pairs : List (Str × Str)) (idx : SecIdx) (k k' f v : Str) :
    k' ∈ secFind (pairs.foldl (fun i p => removeKeyPair i k p.1 p.2) idx) f v ↔
      k' ∈ secFind idx f v ∧ ¬ (k' = k ∧ (f, v) ∈ pairs) := by
  induction pairs generalizing idx with
  | nil =>
    simp only [List.foldl_nil, List.not_mem_nil, and_false, not_false_iff, and_true]
  | cons p ps ih =>
    rw [List.foldl_cons, ih, mem_removeKeyPair]
    simp only [List.mem_cons, Prod.ext_iff]
    constructor
    · rintro ⟨⟨hm, h1⟩, h2⟩
      refine ⟨hm, ?_⟩
      rintro ⟨rfl, hfv | hfv⟩
      · exact h1 ⟨rfl, hfv.1, hfv.2⟩
      · exact h2 ⟨rfl, hfv⟩
    · rintro ⟨hm, h⟩
      refine ⟨⟨hm, ?_⟩, ?_⟩
      · rintro ⟨rfl, hf, hv⟩
        exact h ⟨rfl, Or.inl ⟨hf, hv⟩⟩
      · rintro ⟨rfl, hfv⟩
        exact h ⟨rfl, Or.inr hfv⟩

theorem mem_addFold (pairs : List (Str × Str)) (idx : SecIdx) (k k' f v : Str) :
    k' ∈ secFind (pairs.foldl (fun i p => addKeyPair i k p.1 p.2) idx) f v ↔
      k' ∈ secFind idx f v ∨ (k' = k ∧ (f, v) ∈ pairs) := by
  induction pairs generalizing idx with
  | nil =>
    simp only [List.foldl_nil, List.not_mem_nil, and_false, or_false]
  | cons p ps ih =>
    rw [List.foldl_cons, ih, mem_addKeyPair]
    simp only [List.mem_cons, Prod.ext_iff]
    constructor
    · rintro ((hm | ⟨rfl, hf, hv⟩) | ⟨rfl, hfv⟩)
      · exact Or.inl hm
      · exact Or.inr ⟨rfl, Or.inl ⟨hf, hv⟩⟩
      · exact Or.inr ⟨rfl, Or.inr hfv⟩
    · rintro (hm | ⟨rfl, hfv | hfv⟩)
      · exact Or.inl (Or.inl hm)
      · exact Or.inl (Or.inr ⟨rfl, hfv.1, hfv.2⟩)
      · exact Or.inr ⟨rfl, hfv⟩

/-- Membership through a whole `SecondaryIndex::update`: `k` gains the new
object's pairs and loses the old object's pairs; other keys are untouched. -/
theorem mem_secUpdate (idx : SecIdx) (k : Str) (old new : Option Str)
    (k' f v : Str) :
    k' ∈ secFind (secUpdate idx k old new) f v ↔
      (k' = k ∧ (f, v) ∈ pairsOf new) ∨
      (k' ∈ secFind idx f v ∧ ¬ (k' = k ∧ (f, v) ∈ pairsOf old)) := by
  unfold secUpdate
  rw [mem_addFold, mem_removeFold]
  tauto

/-- Operations with no TTL: `put` and `delete` only. -/
def Op.plain : Op → Prop
  | .putex _ _ _ => False
  | _ => True

instance (op : Op) : Decidable op.plain := by
  cases op <;> simp only [Op.plain] <;> infer_instance

/-- A history with no `putex` (no record carries an expiry). -/
def plainOps (ops : List (Nat × Op)) : Prop := ∀ p ∈ ops, p.2.plain

instance (ops : List (Nat × Op)) : Decidable (plainOps ops) := by
  unfold plainOps
  infer_instance

theorem lastWrite_plain_ex (ops : List (Nat × Op)) (k v : Str) (ex : Option Nat)
    (hp : plainOps ops) (h : lastWrite ops k = some (v, ex)) : ex = none := by
  induction ops using List.reverseRecOn with
  | nil => exact absurd h (by simp [lastWrite])
  | append_singleton ops p ih =>
    have hp' : plainOps ops := fun q hq => hp q (List.mem_append_left _ hq)
    have hpp : p.2.plain := hp p (List.mem_append_right _ (by simp))
    rw [lastWrite_append_one] at h
    rcases hop : p.2 with ⟨k', v'⟩ | ⟨k', v', ttl⟩ | k'
    all_goals simp only [hop] at h
    all_goals simp only [hop, Op.plain] at hpp
    · by_cases hk : k' = k
      · rw [if_pos hk] at h
        exact (Prod.mk.injEq .. ▸ (Option.some_inj.mp h)).2.symm
      · rw [if_neg hk] at h
        exact ih hp' h
    · by_cases hk : k' = k
      · rw [if_pos hk] at h
        exact absurd h (by simp)
      · rw [if_neg hk] at h
        exact ih hp' h

/-- The secondary index mirrors the history: a key is in `find(f, v)` iff
its latest written value's JSON object binds `f` to `v` (stringified). -/
def secMirrors (ops : List (Nat × Op)) (e : SlackbaseEngine) : Prop :=
  ∀ f v k, k ∈ secFind e.secIndex f v ↔
    ∃ val, lastWrite ops k = some (val, none) ∧ (f, v) ∈ pairsOf (some val)

/-- On a reachable state of a `putex`-free history, the pairs contributed by
`get`'s result are exactly those of the latest written value. -/
theorem get_pairs (ops : List (Nat × Op)) (e : SlackbaseEngine) (now : Nat)
    (k : Str) (hw : wfOps ops) (hr : Reach ops e) (hp : plainOps ops) :
    ∀ q, q ∈ pairsOf ((e.get now k).1) ↔
      ∃ val, lastWrite ops k = some (val, none) ∧ q ∈ pairsOf (some val) := by
  intro q
  have hg := get_reach ops e now k hw hr
  rcases hlw : lastWrite ops k with _ | ⟨val, ex⟩
  · rw [hg.2.1 hlw]
    simp only [pairsOf, List.not_mem_nil, false_iff, not_exists]
    rintro val ⟨hc, -⟩
    exact absurd hc (by simp)
  · have hex : ex = none := lastWrite_plain_ex ops k val ex hp hlw
    subst hex
    by_cases hval : val = []
    · subst hval
      constructor
      · intro hq
        rcases hres : (e.get now k).1 with _ | v0
        · rw [hres] at hq
          exact absurd hq (by simp [pairsOf])
        · obtain ⟨ex0, hl0⟩ := hg.1 v0 hres
          rw [hlw] at hl0
          have hv0 : v0 = [] := (Prod.mk.injEq .. ▸ (Option.some_inj.mp hl0)).1.symm
          rw [hres, hv0] at hq
          exact absurd hq (by simp [pairsOf, parseJson, pVal, pFields, pString, pNumber])
      · rintro ⟨val', hval', hq⟩
        have : val' = [] :=
          (Prod.mk.injEq .. ▸ (Option.some_inj.mp hval'.symm)).1
        rw [this] at hq
        exact absurd hq (by simp [pairsOf, parseJson, pVal, pFields, pString, pNumber])
    · rw [hg.2.2.1 val hlw hval]
      constructor
      · exact fun hq => ⟨val, rfl, hq⟩
      · rintro ⟨val', hval', hq⟩
        have : val' = val := (Prod.mk.injEq .. ▸ (Option.some_inj.mp hval')).1.symm
        rw [this] at hq
        exact hq

/-- `put` preserves the secondary-index mirror on reachable `putex`-free
histories. -/
theorem secMirrors_after_put (ops : List (Nat × Op)) (e : SlackbaseEngine)
    (now : Nat) (k v : Str) (hw : wfOps ops) (hr : Reach ops e)
    (hp : plainOps ops) (hs : secMirrors ops e) :
    secMirrors (ops ++ [(now, Op.put k v)]) (e.put_internal now k v none) := by
  obtain ⟨res, l, hh, mm, heq, hl, hput⟩ := put_internal_shape e now k v none
  have hr1 : Reach ops { e with writeOps := e.writeOps + 1 } :=
    ⟨hr.idx_none, hr.idx_some, hr.cache, hr.buf⟩
  have hgp := get_pairs ops { e with writeOps := e.writeOps + 1 } now k hw hr1 hp
  simp only [heq] at hgp
  intro f v' k'
  rw [hput]
  simp only
  rw [mem_secUpdate, lastWrite_append_one]
  simp only
  by_cases hk : k = k'
  · subst hk
    rw [if_pos rfl]
    constructor
    · rintro (⟨-, hm⟩ | ⟨hmem, hnot⟩)
      · exact ⟨v, rfl, hm⟩
      · obtain ⟨val, hval, hq⟩ := (hs f v' k).mp hmem
        exact absurd ((hgp (f, v')).mpr ⟨val, hval, hq⟩) (fun hc => hnot ⟨rfl, hc⟩)
    · rintro ⟨val, hval, hq⟩
      have hv : val = v := (Prod.mk.injEq .. ▸ (Option.some_inj.mp hval.symm)).1
      exact Or.inl ⟨rfl, hv ▸ hq⟩
  · rw [if_neg hk]
    have hks := hs f v' k'
    constructor
    · rintro (⟨hk', -⟩ | ⟨hmem, -⟩)
      · exact absurd hk'.symm hk
      · exact hks.mp hmem
    · intro hrhs
      exact Or.inr ⟨hks.mpr hrhs, fun hc => hk hc.1.symm⟩

/-- `delete` preserves the secondary-index mirror on reachable `putex`-free
histories. -/
theorem secMirrors_after_delete (ops : List (Nat × Op)) (e : SlackbaseEngine)
    (now : Nat) (k : Str) (hw : wfOps ops) (hr : Reach ops e)
    (hp : plainOps ops) (hs : secMirrors ops e) :
    secMirrors (ops ++ [(now, Op.del k)]) (e.delete now k) := by
  obtain ⟨res, l, hh, mm, heq, hl, hdel⟩ := delete_shape e now k
  have hr1 : Reach ops { e with writeOps := e.writeOps + 1 } :=
    ⟨hr.idx_none, hr.idx_some, hr.cache, hr.buf⟩
  have hgp := get_pairs ops { e with writeOps := e.writeOps + 1 } now k hw hr1 hp
  simp only [heq] at hgp
  intro f v' k'
  rw [hdel]
  simp only
  rw [mem_secUpdate, lastWrite_append_one]
  simp only
  by_cases hk : k = k'
  · subst hk
    rw [if_pos rfl]
    constructor
    · rintro (⟨-, hm⟩ | ⟨hmem, hnot⟩)
      · exact absurd hm (by simp [pairsOf])
      · obtain ⟨val, hval, hq⟩ := (hs f v' k).mp hmem
        exact absurd ((hgp (f, v')).mpr ⟨val, hval, hq⟩) (fun hc => hnot ⟨rfl, hc⟩)
    · rintro ⟨val, hval, -⟩
      exact absurd hval (by simp)
  · rw [if_neg hk]
    have hks := hs f v' k'
    constructor
    · rintro (⟨hk', -⟩ | ⟨hmem, -⟩)
      · exact absurd hk'.symm hk
      · exact hks.mp hmem
    · intro hrhs
      exact Or.inr ⟨hks.mpr hrhs, fun hc => hk hc.1.symm⟩

/-- For every `putex`-free well-formed history from a fresh database, the
secondary index mirrors the latest written values. -/
theorem secMirrors_runOps (ops : List (Nat × Op)) (hw : wfOps ops)
    (hp : plainOps ops) : secMirrors ops (runOps SlackbaseEngine.empty ops) := by
  induction ops using List.reverseRecOn with
  | nil =>
    intro f v k
    constructor
    · intro hm
      rw [show secFind (runOps SlackbaseEngine.empty []).secIndex f v = [] from rfl] at hm
      exact absurd hm (List.not_mem_nil _)
    · rintro ⟨val, hval, -⟩
      exact absurd hval (by simp [lastWrite])
  | append_singleton ops p ih =>
    have hw' : wfOps ops := fun q hq => hw q (List.mem_append_left _ hq)
    have hp' : plainOps ops := fun q hq => hp q (List.mem_append_left _ hq)
    have hrun : runOps SlackbaseEngine.empty (ops ++ [p]) =
        stepOp (runOps SlackbaseEngine.empty ops) p := by
      unfold runOps
      rw [List.foldl_append]
      rfl
    rw [hrun]
    obtain ⟨now, op⟩ := p
    rcases op with ⟨k, v⟩ | ⟨k, v, ttl⟩ | k
    · exact secMirrors_after_put ops _ now k v hw' (reach_runOps ops hw') hp'
        (ih hw' hp')
    · have hmem := hp (now, Op.putex k v ttl) (List.mem_append_right _ (by simp))
      exact absurd hmem (by simp [Op.plain])
    · exact secMirrors_after_delete ops _ now k hw' (reach_runOps ops hw') hp'
        (ih hw' hp')

/-- The C7 scenario value: the JSON object `{"f":"v"}`. -/
def c7Obj : Str := [123, 34, 102, 34, 58, 34, 118, 34, 125]

/-- The C7 scenario: `putex k {"f":"v"} 10` at time 0 (absolute expiry 10). -/
def c7Run : SlackbaseEngine :=
  runOps SlackbaseEngine.empty [(0, Op.putex [107] c7Obj 10)]

/-- The C7 store reopened (fresh LRU, index and secondary index reloaded). -/
def c7Reopened : SlackbaseEngine :=
  SlackbaseEngine.openWith c7Run.file c7Run.index c7Run.secIndex

/-- Counterexample to C7 as stated: after `putex k {"f":"v"} 10`, at
`now = 100` the key is expired — `get` on the reopened store returns empty —
yet `find("f", "v")` still returns `k`: nothing ever removes an expired
key's pairs from the secondary index, so expired keys do appear in `find`
results. -/
theorem C7_counterexample :
    (c7Reopened.get 100 [107]).1 = none ∧
    secFind c7Reopened.secIndex [102] [118] = [[107]] := by
  exact ⟨by decide, by rfl⟩

/-- C7 amended: for histories of `put`/`delete` only (no `putex`, since
expired keys are never purged from the secondary index), `find(field, value)`
returns exactly the keys whose latest written value parses as a JSON object
binding `field` to `value` (a JSON string contributing its raw text, any
other value its JSON serialization); deleted and never-written keys appear
in no result. -/
theorem C7_secondary_index (ops : List (Nat × Op)) (hw : wfOps ops)
    (hp : plainOps ops) (f v k : Str) :
    k ∈ secFind (runOps SlackbaseEngine.empty ops).secIndex f v ↔
      ∃ val, lastWrite ops k = some (val, none) ∧ (f, v) ∈ pairsOf (some val) :=
  secMirrors_runOps ops hw hp f v k

/-- Witness for C7 amended: after `put k {"f":"v"}`, `find("f", "v")`
contains `k`. -/
theorem C7_secondary_index_witness :
    [107] ∈ secFind
      (runOps SlackbaseEngine.empty [(0, Op.put [107] c7Obj)]).secIndex
      [102] [118] :=
  (C7_secondary_index [(0, Op.put [107] c7Obj)] (by decide) (by decide)
    [102] [118] [107]).mpr ⟨c7Obj, by rfl, by decide⟩

end Slackbase
